import Mathlib

/-!
Verification of the tag-file parsing core: a Unicode-classifying tokenizer
(`lex` in the source, modelled here as `lexChunks` over code points) and a
single-pass, line-oriented parser (`parse` in `parseLine`), which consumes
the raw text together with a token stream and produces `TagMapping`
records while maintaining a line-state machine and a whitespace-prefix
stack.

Texts are modelled as `List Char`; token offsets are `Nat` code-unit
indices; the lazy generator of the source is modelled as a total function
returning `Except` (a raised error aborts the remainder of the sequence,
so the whole iteration is summarised by an error value or the full output
list).
-/

namespace Ankiss

/-- Code-unit text, JS string contents. -/
abbrev Str := List Char

/-- `String.prototype.substring(a, b)`: character range `[min a b, max a b)`,
clamped to the string. -/
def substring (s : Str) (a b : Nat) : Str :=
  if a ≤ b then (s.take b).drop a else (s.take a).drop b

/-- Token tags of the wsOnly lexer: `'nl' | 'ws' | 'nonws'`. -/
inductive Tag
  | nl
  | ws
  | nonws
deriving DecidableEq, Repr

/-- `Token<Tag>`: a tagged half-open span `[start, stop)` of the source
text (`end` in the source, renamed because `end` is a Lean keyword). -/
structure Token where
  tag : Tag
  start : Nat
  stop : Nat
deriving DecidableEq, Repr

/-- `TagMapping` output record; the `line : {start, end}` span is
flattened into `lineStart`/`lineEnd`. -/
structure TagMapping where
  linum : Nat
  lineStart : Nat
  lineEnd : Nat
  nesting : Nat
  label : Str
  mapping : Option Str
deriving DecidableEq, Repr

/-- The parser's line-state machine (`State` in the source): one variant
per `state` tag, with the per-variant fields carried by that variant. -/
inductive LState
  | lineBreak
  | beginWs
  | label (nesting : Nat) (lab : Str)
  | labelWs (nesting : Nat) (lab : Str) (mappingStart : Nat)
  | mapping (nesting : Nat) (lab : Str) (mappingStart : Nat) (mappingEnd : Nat)
  | mappingWs (nesting : Nat) (lab : Str) (mappingStart : Nat) (mappingEnd : Nat)
deriving DecidableEq, Repr

/-- The two `TagError` messages of the parser. -/
inductive ErrKind
  | firstNonempty
  | inconsistentWs (level : Nat)
deriving DecidableEq, Repr

/-- Failure outcomes of one parser invocation: a structured `TagError`
(message kind, offending `linum`, text excerpt), a `devAssert(false)`
assertion failure on an invariant-violation branch, or the TypeError the
pop loop would hit reading past the bottom of an emptied stack. -/
inductive PErr
  | tagError (kind : ErrKind) (linum : Nat) (excerpt : Str)
  | assertFail
  | underflow
deriving DecidableEq, Repr

/-- `parse`'s mutable locals: `linum`, `lineStart`, the line state `s` and
the whitespace stack (head of the list = top of the JS array). -/
structure PState where
  linum : Nat
  lineStart : Nat
  s : LState
  wsStack : List Str
deriving DecidableEq, Repr

/-- `hasLabel()`: the current line state carries a label. -/
def hasLabel : LState → Bool
  | .lineBreak => false
  | .beginWs => false
  | _ => true

/-- `marshal(end)`: build the output record from the line state.  The
states rejected by the source's `devAssert` yield `none` (call sites are
guarded by `hasLabel`). -/
def marshal (str : Str) (linum lineStart : Nat) (s : LState) (stop : Nat) :
    Option TagMapping :=
  match s with
  | .lineBreak => none
  | .beginWs => none
  | .label n lab => some ⟨linum, lineStart, stop, n, lab, none⟩
  | .labelWs n lab _ => some ⟨linum, lineStart, stop, n, lab, none⟩
  | .mapping n lab ms me => some ⟨linum, lineStart, stop, n, lab, some (substring str ms me)⟩
  | .mappingWs n lab ms me => some ⟨linum, lineStart, stop, n, lab, some (substring str ms me)⟩

/-- Outcome of the dedent pop loop inside `computeNesting`. -/
inductive PopRes
  | found (wsStack : List Str)
  | inconsistent (level : Nat)
  | underflow
deriving DecidableEq, Repr

/-- The `while (ws !== wsStack[wsStack.length - 1])` pop loop of
`computeNesting`: stop when the top equals `ws`; report the inconsistency
error (`wsStack.length` is the reported level) when `ws.length` is at
least the top's length but the strings differ; otherwise pop and
continue.  An emptied stack (impossible in reachable states) is the
`underflow` outcome. -/
def popLoop (ws : Str) : List Str → PopRes
  | [] => .underflow
  | top :: rest =>
    if ws = top then .found (top :: rest)
    else if top.length ≤ ws.length then .inconsistent (rest.length + 1)
    else popLoop ws rest

/-- `computeNesting()`: invoked on the `nonws` token (`[tstart, tstop)`)
that follows leading whitespace.  Empty stack means no nonempty line has
been seen, so the first nonempty line is not top-level: `TagError`.  Else
`ws` is the leading whitespace `str.substring(lineStart, tstart)`; if it
extends the stack top it is pushed (new nesting level), if it equals the
top the nesting is unchanged, otherwise the pop loop finds an exact match
or reports inconsistent whitespace.  Returns the nesting level
`wsStack.length - 1` together with the updated stack.  The error excerpt
is `str.substring(lineStart, tstop)`. -/
def computeNesting (str : Str) (linum lineStart tstart tstop : Nat)
    (wsStack : List Str) : Except PErr (Nat × List Str) :=
  match wsStack with
  | [] => .error (.tagError .firstNonempty linum (substring str lineStart tstop))
  | top :: rest =>
    let ws := substring str lineStart tstart
    if top.isPrefixOf ws then
      if ws = top then .ok (rest.length, top :: rest)
      else .ok (rest.length + 1, ws :: top :: rest)
    else
      match popLoop ws (top :: rest) with
      | .found stack2 => .ok (stack2.length - 1, stack2)
      | .inconsistent lvl =>
        .error (.tagError (.inconsistentWs lvl) linum (substring str lineStart tstop))
      | .underflow => .error .underflow

/-- One iteration of `parse`'s token loop: the `switch (tag)` dispatch.
Returns the updated parser state and the record yielded on this token, if
any. -/
def step (str : Str) (ps : PState) (t : Token) :
    Except PErr (PState × Option TagMapping) :=
  match t.tag with
  | .nl =>
    if hasLabel ps.s then
      match marshal str ps.linum ps.lineStart ps.s t.stop with
      | some m => .ok (⟨ps.linum + 1, t.stop, .lineBreak, ps.wsStack⟩, some m)
      | none => .error .assertFail
    else .ok (⟨ps.linum + 1, t.stop, .lineBreak, ps.wsStack⟩, none)
  | .ws =>
    match ps.s with
    | .lineBreak => .ok ({ ps with s := .beginWs }, none)
    | .label n lab => .ok ({ ps with s := .labelWs n lab t.stop }, none)
    | .mapping n lab ms me => .ok ({ ps with s := .mappingWs n lab ms me }, none)
    | _ => .error .assertFail
  | .nonws =>
    match ps.s with
    | .lineBreak =>
      .ok ({ ps with s := .label 0 (substring str t.start t.stop), wsStack := [[]] }, none)
    | .beginWs =>
      match computeNesting str ps.linum ps.lineStart t.start t.stop ps.wsStack with
      | .ok (n, stack2) =>
        .ok ({ ps with s := .label n (substring str t.start t.stop), wsStack := stack2 }, none)
      | .error e => .error e
    | .labelWs n lab ms => .ok ({ ps with s := .mapping n lab ms t.stop }, none)
    | .mappingWs n lab ms _ => .ok ({ ps with s := .mapping n lab ms t.stop }, none)
    | _ => .error .assertFail

/-- `parse`'s `for (const { tag, start, end } of tags)` loop: fold `step`
over the token stream, collecting the yielded records. -/
def runSteps (str : Str) : List Token → PState → Except PErr (PState × List TagMapping)
  | [], ps => .ok (ps, [])
  | t :: ts, ps =>
    match step str ps t with
    | .ok (ps2, out) =>
      match runSteps str ts ps2 with
      | .ok (ps3, outs) => .ok (ps3, out.toList ++ outs)
      | .error e => .error e
    | .error e => .error e

/-- The body of `parse` from a given starting state: run the loop, then
the trailing `if (hasLabel()) yield marshal(str.length)` for inputs whose
last line has no line break. -/
def parseAux (str : Str) (ts : List Token) (ps : PState) : Except PErr (List TagMapping) :=
  match runSteps str ts ps with
  | .ok (ps2, outs) =>
    if hasLabel ps2.s then
      match marshal str ps2.linum ps2.lineStart ps2.s str.length with
      | some m => .ok (outs ++ [m])
      | none => .error .assertFail
    else .ok outs
  | .error e => .error e

/-- `parse(str, tags)`: initial state `linum = 1`, `lineStart = 0`, line
state `LineBreak`, empty whitespace stack. -/
def parse (str : Str) (ts : List Token) : Except PErr (List TagMapping) :=
  parseAux str ts ⟨1, 0, .lineBreak, []⟩

/-! ### The token contract (spec section 3)

A stream conforms when each token is a nonempty span, tokens are
contiguous starting at offset 0 and ending at the text length, and no two
consecutive tokens are both `ws` or both `nonws`. -/

/-- Conformance of a token stream covering `[pos, strLen)`. -/
def conformingFrom (strLen : Nat) (pos : Nat) : List Token → Bool
  | [] => pos == strLen
  | t :: ts =>
    (t.start == pos) && decide (t.start < t.stop) &&
    (match ts with
     | [] => true
     | u :: _ => !(t.tag == Tag.ws && u.tag == Tag.ws) &&
                 !(t.tag == Tag.nonws && u.tag == Tag.nonws)) &&
    conformingFrom strLen t.stop ts

/-- The section-3 token contract for a whole stream over `str`. -/
def conforming (str : Str) (ts : List Token) : Bool :=
  conformingFrom str.length 0 ts

/-! ### The wsOnly lexer (C8)

`lex` classifies an input by the sticky regex
`(?<nl>\r\n|[\n\f\r\x85  ])|(?<ws>[\p{White_Space}--[..]]+)|(?<nonws>\P{White_Space}+)`
with the alternatives tried in that order at each position (so an
adjacent CR LF pair is coalesced before the single-character newline
alternative can fire) and each run matched maximally.  The text is a list
of Unicode code points; each emitted token is represented by its tag and
the code points it covers. -/

/-- Newline code points per Unicode 5.8: LF, FF, CR, NEL, LS, PS. -/
def nlCp (c : Nat) : Bool :=
  decide (c = 0x0A ∨ c = 0x0C ∨ c = 0x0D ∨ c = 0x85 ∨ c = 0x2028 ∨ c = 0x2029)

/-- The Unicode `White_Space` property. -/
def whiteSpaceCp (c : Nat) : Bool :=
  decide ((0x09 ≤ c ∧ c ≤ 0x0D) ∨ c = 0x20 ∨ c = 0x85 ∨ c = 0xA0 ∨ c = 0x1680 ∨
    (0x2000 ≤ c ∧ c ≤ 0x200A) ∨ c = 0x2028 ∨ c = 0x2029 ∨ c = 0x202F ∨
    c = 0x205F ∨ c = 0x3000)

/-- The lexer's `ws` class: `White_Space` minus the newline set. -/
def wsCp (c : Nat) : Bool := whiteSpaceCp c && !nlCp c

/-- The lexer's `nonws` class: `\P{White_Space}`. -/
def nonwsCp (c : Nat) : Bool := !whiteSpaceCp c

/-- `lex(str)` with each token given as its tag and the span of code
points it covers: CR LF pairs first, then single newlines, then maximal
`ws` runs, then maximal `nonws` runs. -/
def lexChunks : List Nat → List (Tag × List Nat)
  | [] => []
  | c :: cs =>
    if c = 0x0D ∧ cs.head? = some 0x0A then
      (Tag.nl, [0x0D, 0x0A]) :: lexChunks cs.tail
    else if nlCp c then
      (Tag.nl, [c]) :: lexChunks cs
    else if wsCp c then
      (Tag.ws, c :: cs.takeWhile wsCp) :: lexChunks (cs.dropWhile wsCp)
    else
      (Tag.nonws, c :: cs.takeWhile nonwsCp) :: lexChunks (cs.dropWhile nonwsCp)
termination_by l => l.length
decreasing_by
  · simp only [List.length_cons, List.length_tail]
    omega
  · simp
  · simp only [List.length_cons]
    exact Nat.lt_succ_of_le (List.dropWhile_sublist wsCp).length_le
  · simp only [List.length_cons]
    exact Nat.lt_succ_of_le (List.dropWhile_sublist nonwsCp).length_le

/-! ### Line-level reference semantics

To state the error and extraction claims we split a token stream into
logical lines and describe, line by line, what `parse` must produce.
These definitions follow the specification's line-oriented wording (one
record per non-blank line; `nesting` from the evolving whitespace-prefix
stack) rather than the token-by-token state machine. -/

/-- One logical line of input: its 1-based line number, the offset of its
first code unit, the end offset the parser would report for it (the end
of its trailing line-break token, or the text length for the final line),
and its tokens (excluding the trailing line break). -/
structure LineRec where
  linum : Nat
  lineStart : Nat
  lineEnd : Nat
  toks : List Token
deriving DecidableEq, Repr

/-- Split a token stream into logical lines at its `nl` tokens.  There is
always one (possibly empty) final line after the last `nl`. -/
def splitLines (strLen : Nat) : Nat → Nat → List Token → List LineRec
  | linum, pos, [] => [⟨linum, pos, strLen, []⟩]
  | linum, pos, t :: ts =>
    if t.tag = Tag.nl then ⟨linum, pos, t.stop, []⟩ :: splitLines strLen (linum + 1) t.stop ts
    else
      match splitLines strLen linum pos ts with
      | [] => []
      | l :: ls => ⟨l.linum, l.lineStart, l.lineEnd, t :: l.toks⟩ :: ls

/-- The first Content token of a line, if any. -/
def firstContent (l : List Token) : Option Token :=
  l.find? (fun t => t.tag == Tag.nonws)

/-- All Content tokens of a line. -/
def contentToks (l : List Token) : List Token :=
  l.filter (fun t => t.tag == Tag.nonws)

/-- The `mapping` field a line must produce: `none` when the line has at
most one Content token, otherwise the source substring from the start of
the line's second Content token to the end of its last Content token. -/
def lineMapping (str : Str) (l : List Token) : Option Str :=
  match contentToks l with
  | [] => none
  | [_] => none
  | _ :: second :: more =>
    match (second :: more).getLast? with
    | some cl => some (substring str second.start cl.stop)
    | none => none

/-- The leading whitespace of a line (text from the line start to the
start of its first Content token), or `none` for a blank line. -/
def lineWs (str : Str) (l : LineRec) : Option Str :=
  (firstContent l.toks).map (fun t => substring str l.lineStart t.start)

/-- The two fatal conditions of the specification: (a) the first
non-blank line has non-empty leading whitespace; (b) a later non-blank
line is an ambiguous dedent. -/
inductive SpecErr
  | errFirst
  | errInconsistent
deriving DecidableEq, Repr

/-- Reference whitespace-stack transition for one non-blank line with
leading whitespace `w`, following the specification: an empty `w` begins
a new top-level line and rebuilds the stack as `[""]`; a non-empty `w`
with an empty stack means the very first non-blank line is indented
(condition (a)); `w` equal to the top keeps the stack; `w` strictly
extending the top pushes a new level; `w` equal to some deeper level pops
down to that level; any other `w` matches no level and is not a valid new
level: ambiguous dedent (condition (b)). -/
def specNest (w : Str) (stack : List Str) : Except SpecErr (List Str) :=
  if w = [] then .ok [[]]
  else
    match stack with
    | [] => .error .errFirst
    | top :: rest =>
      if w = top then .ok (top :: rest)
      else if top.isPrefixOf w then .ok (w :: top :: rest)
      else if (top :: rest).contains w then
        .ok ((top :: rest).dropWhile (fun e => e != w))
      else .error .errInconsistent

/-- Reference processing of one line: blank lines leave the stack alone
and emit nothing; a non-blank line updates the stack via `specNest` and
emits one record whose `nesting` is the depth of the updated stack, whose
`label` is the text of the line's first Content token, and whose
`mapping` is `lineMapping`. -/
def lineOut (str : Str) (stack : List Str) (l : LineRec) :
    Except SpecErr (Option TagMapping × List Str) :=
  match firstContent l.toks with
  | none => .ok (none, stack)
  | some ft =>
    match specNest (substring str l.lineStart ft.start) stack with
    | .ok stack2 =>
      .ok (some ⟨l.linum, l.lineStart, l.lineEnd, stack2.length - 1,
                 substring str ft.start ft.stop, lineMapping str l.toks⟩, stack2)
    | .error e => .error e

/-- Reference run over a list of lines. -/
def specRun (str : Str) : List LineRec → List Str → Except SpecErr (List TagMapping)
  | [], _ => .ok []
  | l :: ls, stack =>
    match lineOut str stack l with
    | .ok (none, stack2) => specRun str ls stack2
    | .ok (some m, stack2) =>
      match specRun str ls stack2 with
      | .ok outs => .ok (m :: outs)
      | .error e => .error e
    | .error e => .error e

/-- The line-level reference semantics of `parse`. -/
def specParse (str : Str) (ts : List Token) : Except SpecErr (List TagMapping) :=
  specRun str (splitLines str.length 1 0 ts) []

/-- The non-blank lines of a stream, in order. -/
def contentLines (str : Str) (ts : List Token) : List LineRec :=
  (splitLines str.length 1 0 ts).filter (fun l => (firstContent l.toks).isSome)

/-- The error is a `TagError` (as opposed to an assertion failure or a
stack underflow, which the parser must never produce on conforming
input). -/
def isTagError : PErr → Bool
  | .tagError _ _ _ => true
  | _ => false

/-- Correspondence between a run of the parser and the reference
semantics: identical outputs on success, and a `TagError` of the
corresponding kind ((a) `firstNonempty` / `errFirst`, (b)
`inconsistentWs` / `errInconsistent`) on failure. -/
def sameResult : Except PErr (List TagMapping) → Except SpecErr (List TagMapping) → Prop
  | .ok o1, .ok o2 => o1 = o2
  | .error (.tagError .firstNonempty _ _), .error .errFirst => True
  | .error (.tagError (.inconsistentWs _) _ _), .error .errInconsistent => True
  | _, _ => False

/-- The dedent pop loop as worded by the specification ("if an entry's
length is ≥ `ws`'s length but the strings are unequal, report error;
otherwise pop until the top exactly equals `ws`"), for comparison with
the implemented `popLoop`: the direction of the length comparison is the
only difference. -/
def popLoopAsClaimed (ws : Str) : List Str → PopRes
  | [] => .underflow
  | top :: rest =>
    if ws = top then .found (top :: rest)
    else if ws.length ≤ top.length then .inconsistent (rest.length + 1)
    else popLoopAsClaimed ws rest

/-- `nesting` discipline of an output sequence: each record's nesting is
at most one more than its predecessor's, the first being at most `k`. -/
def NestOk : Nat → List TagMapping → Prop
  | _, [] => True
  | k, m :: ms => m.nesting ≤ k ∧ NestOk (m.nesting + 1) ms

/-- Shift a token's offsets by `d` code units. -/
def shiftTok (d : Nat) (t : Token) : Token :=
  ⟨t.tag, t.start + d, t.stop + d⟩

/-- Effect on an output record of inserting one blank line of `d` code
units before its line: the line number advances by one and the line span
shifts by `d`; nesting, label and mapping are untouched. -/
def shiftOut (d : Nat) (m : TagMapping) : TagMapping :=
  ⟨m.linum + 1, m.lineStart + d, m.lineEnd + d, m.nesting, m.label, m.mapping⟩

/-- Effect of the same insertion on a reported error: the offending line
number advances by one (the excerpt text is unchanged). -/
def shiftErr : PErr → PErr
  | .tagError k n ex => .tagError k (n + 1) ex
  | e => e

/-- The parser's initial state. -/
def initPS : PState := ⟨1, 0, .lineBreak, []⟩

/-- Decidable equality of `Except` results, so that concrete runs can be
checked by `decide`. -/
def exceptDecEq {ε α : Type} [DecidableEq ε] [DecidableEq α] :
    DecidableEq (Except ε α) := fun x y =>
  match x, y with
  | .ok a, .ok b =>
    if h : a = b then isTrue (by rw [h]) else isFalse (by intro hh; cases hh; exact h rfl)
  | .error a, .error b =>
    if h : a = b then isTrue (by rw [h]) else isFalse (by intro hh; cases hh; exact h rfl)
  | .ok _, .error _ => isFalse (by intro hh; cases hh)
  | .error _, .ok _ => isFalse (by intro hh; cases hh)

instance {ε α : Type} [DecidableEq ε] [DecidableEq α] : DecidableEq (Except ε α) :=
  exceptDecEq

/-! ### Stack shape invariant -/

/-- Shape of every reachable whitespace stack: either never populated, or
a chain whose bottom entry is the empty string and in which every entry
strictly extends the entry below it. -/
def StackInv (stack : List Str) : Prop :=
  stack = [] ∨
    (stack.getLast? = some [] ∧
     List.Chain' (fun a b => b <+: a ∧ b ≠ a) stack)

/-! ### Auxiliary notions for the machine / line-level correspondence -/

/-- Tokens are contiguous nonempty spans starting at `pos`. -/
def Contig : Nat → List Token → Prop
  | _, [] => True
  | pos, t :: ts => t.start = pos ∧ t.start < t.stop ∧ Contig t.stop ts

/-- The adjacency constraint of the token contract, for one pair. -/
def adjOK (a b : Token) : Prop :=
  ¬(a.tag = Tag.ws ∧ b.tag = Tag.ws) ∧ ¬(a.tag = Tag.nonws ∧ b.tag = Tag.nonws)

/-- Position reached after reading `a` starting from `p`. -/
def endOf (p : Nat) (a : List Token) : Nat :=
  match a.getLast? with
  | none => p
  | some t => t.stop

/-- Mapping span produced by the rest of a line when exactly one Content
token (the label) has been consumed so far: from the start of the next
Content token to the end of the last one, if any. -/
def extMapping1 (str : Str) (tail : List Token) : Option Str :=
  match contentToks tail with
  | [] => none
  | c2 :: more =>
    match (c2 :: more).getLast? with
    | some cl => some (substring str c2.start cl.stop)
    | none => none

/-- Mapping span produced by the rest of a line when at least two Content
tokens have been consumed, the current span being `[ms, me)`: the end is
pushed to the last further Content token, if any. -/
def extMapping2 (str : Str) (ms me : Nat) (tail : List Token) : Option Str :=
  match contentToks tail with
  | [] => some (substring str ms me)
  | c2 :: more =>
    match (c2 :: more).getLast? with
    | some cl => some (substring str ms cl.stop)
    | none => none

/-- The mapping the line will finally produce, as a function of the
current mid-line state and the remaining (line-break-free) tokens. -/
def stateMapping (str : Str) (s : LState) (tail : List Token) : Option Str :=
  match s with
  | .label _ _ => extMapping1 str tail
  | .labelWs _ _ _ => extMapping1 str tail
  | .mapping _ _ ms me => extMapping2 str ms me tail
  | .mappingWs _ _ ms me => extMapping2 str ms me tail
  | _ => none

/-- The state is one of the four labelled states, with the given nesting
and label. -/
def labelState (n : Nat) (lab : Str) : LState → Prop
  | .label n' lab' => n' = n ∧ lab' = lab
  | .labelWs n' lab' _ => n' = n ∧ lab' = lab
  | .mapping n' lab' _ _ => n' = n ∧ lab' = lab
  | .mappingWs n' lab' _ _ => n' = n ∧ lab' = lab
  | _ => False

/-- In state `LabelWs` the recorded mapping-start candidate is the
current read position (the end of the whitespace token just consumed). -/
def msAt (q : Nat) : LState → Prop
  | .labelWs _ _ ms => ms = q
  | _ => True

/-- States entered by consuming a Whitespace token. -/
def justWsState : LState → Bool
  | .beginWs => true
  | .labelWs _ _ _ => true
  | .mappingWs _ _ _ _ => true
  | _ => false

/-- States entered by consuming a Content token. -/
def justContentState : LState → Bool
  | .label _ _ => true
  | .mapping _ _ _ _ => true
  | _ => false

/-- Shift the position fields of a line state by `d` (labels are already
extracted strings and are unaffected). -/
def shiftLS (d : Nat) : LState → LState
  | .lineBreak => .lineBreak
  | .beginWs => .beginWs
  | .label n lab => .label n lab
  | .labelWs n lab ms => .labelWs n lab (ms + d)
  | .mapping n lab ms me => .mapping n lab (ms + d) (me + d)
  | .mappingWs n lab ms me => .mappingWs n lab (ms + d) (me + d)

/-- Parser state after one blank line of `d` code units was inserted
before the current line: line number up by one, positions shifted by `d`,
whitespace stack unchanged. -/
def shiftPS (d : Nat) (ps : PState) : PState :=
  ⟨ps.linum + 1, ps.lineStart + d, shiftLS d ps.s, ps.wsStack⟩

/-- All position fields of the line state lie at or below `q`. -/
def StateB (q : Nat) : LState → Prop
  | .labelWs _ _ ms => ms ≤ q
  | .mapping _ _ ms me => ms ≤ q ∧ me ≤ q
  | .mappingWs _ _ ms me => ms ≤ q ∧ me ≤ q
  | _ => True

/-- All position fields of the line state lie at or above `q`. -/
def StateGE (q : Nat) : LState → Prop
  | .labelWs _ _ ms => q ≤ ms
  | .mapping _ _ ms me => q ≤ ms ∧ q ≤ me
  | .mappingWs _ _ ms me => q ≤ ms ∧ q ≤ me
  | _ => True

/-! ## Theorems -/

/-! ### The dedent pop loop (C2) -/

/-- Exact closed form of the pop loop: it pops precisely the stack
entries that are strictly longer than `ws` and different from it; at the
first remaining entry it succeeds when that entry equals `ws` and reports
the inconsistency error when that entry's length is at most `ws`'s length
(equivalently, `ws.length ≥` the entry's length) but the entry differs
from `ws`; it underflows only if every entry was popped. -/
theorem popLoop_eq_dropWhile (w : Str) (stack : List Str) :
    popLoop w stack =
      match stack.dropWhile (fun e => decide (e ≠ w) && decide (w.length < e.length)) with
      | [] => .underflow
      | top :: rest =>
        if w = top then .found (top :: rest) else .inconsistent (rest.length + 1) := by
  induction stack with
  | nil => rfl
  | cons top rest ih =>
    by_cases h1 : w = top
    · simp [popLoop, h1, List.dropWhile_cons]
    · by_cases h2 : top.length ≤ w.length
      · have hlt : ¬(w.length < top.length) := by omega
        simp [popLoop, h1, h2, List.dropWhile_cons, Ne.symm h1, hlt]
      · have hne : top ≠ w := Ne.symm h1
        have hlt : w.length < top.length := by omega
        simp [popLoop, h1, h2, List.dropWhile_cons, hne, hlt, ih]

/-- C2: the claim swaps the direction of the length comparison.  On stack
`["\t", ""]` (bottom last) with `ws = "  "`, every entry's length is
strictly below `ws`'s, so by the claimed rule the loop would pop both
entries without ever reporting the inconsistency error; the implemented
loop instead errors immediately at `"\t"` because `ws.length ≥ "\t".length`
and the strings differ. -/
theorem C2_counterexample :
    popLoop [' ', ' '] [['\t'], []] = .inconsistent 2 ∧
    popLoopAsClaimed [' ', ' '] [['\t'], []] = .underflow ∧
    (∀ e ∈ [[('\t' : Char)], ([] : Str)], e.length < 2) := by
  refine ⟨rfl, rfl, by decide⟩

/-- C2 (amended: the comparison is reversed relative to the claim's
wording): while popping, the loop reports the fatal inconsistency error
exactly when it inspects a stack entry whose length is less than or equal
to `ws`'s length and the entry is unequal to `ws`; entries strictly
longer than `ws` (and unequal to it) are popped, and the loop stops
successfully when the top exactly equals `ws`. -/
theorem C2_popLoop_characterization (w : Str) (stack : List Str) :
    popLoop w stack =
      match stack.dropWhile (fun e => decide (e ≠ w) && decide (w.length < e.length)) with
      | [] => .underflow
      | top :: rest =>
        if w = top then .found (top :: rest) else .inconsistent (rest.length + 1) :=
  popLoop_eq_dropWhile w stack

/-! ### The lexer's line-break tokens (C8) -/

/-- Every chunk the lexer emits is nonempty and begins with the input's
character at the corresponding position; in particular the first chunk
begins with the input's first character. -/
theorem lexChunks_head (s : List Nat) (p : Tag × List Nat) (rest : List (Tag × List Nat))
    (h : lexChunks s = p :: rest) : p.2.head? = s.head? := by
  match s with
  | [] => simp [lexChunks] at h
  | c :: cs =>
    by_cases h1 : c = 0x0D ∧ cs.head? = some 0x0A
    · rw [lexChunks, if_pos h1] at h
      cases h; simp [h1.1]
    · rw [lexChunks, if_neg h1] at h
      by_cases h2 : nlCp c
      · rw [if_pos h2] at h; cases h; rfl
      · rw [if_neg h2] at h
        by_cases h3 : wsCp c
        · rw [if_pos h3] at h; cases h; rfl
        · rw [if_neg h3] at h; cases h; rfl

/-- C8: a lexer token tagged as a line break covers exactly one code
point, except for the coalesced CR LF pair, which covers exactly the two
code points CR and LF; consequently the lexer never emits a token whose
text is a lone CR immediately followed by a token whose text is a lone
LF. -/
theorem C8_linebreak_tokens (s : List Nat) :
    (∀ p ∈ lexChunks s, p.1 = Tag.nl →
      (p.2 = [0x0D, 0x0A] ∧ p.2.length = 2) ∨ p.2.length = 1) ∧
    List.Chain' (fun a b : Tag × List Nat => ¬(a.2 = [0x0D] ∧ b.2 = [0x0A]))
      (lexChunks s) := by
  induction s using lexChunks.induct with
  | case1 => simp [lexChunks]
  | case2 c cs hcr ih =>
    rw [lexChunks, if_pos hcr]
    refine ⟨?_, ?_⟩
    · rintro p hp hnl
      rcases List.mem_cons.mp hp with hp | hp
      · left; cases hp; exact ⟨rfl, rfl⟩
      · exact ih.1 p hp hnl
    · rw [List.chain'_cons']
      refine ⟨?_, ih.2⟩
      intro y _
      rintro ⟨hy, -⟩
      simp at hy
  | case3 c cs hcr hnl ih =>
    rw [lexChunks, if_neg hcr, if_pos hnl]
    refine ⟨?_, ?_⟩
    · rintro p hp hp1
      rcases List.mem_cons.mp hp with hp | hp
      · right; cases hp; rfl
      · exact ih.1 p hp hp1
    · rw [List.chain'_cons']
      refine ⟨?_, ih.2⟩
      intro y hy
      rintro ⟨ha, hb⟩
      -- the emitted chunk is `[c]`, so `c = 0x0D`; the CR LF branch was
      -- not taken, so `cs` does not begin with LF, but `y`'s chunk does.
      have hc : c = 0x0D := by simpa using congrArg List.head? ha
      have hnext : ¬(cs.head? = some 0x0A) := fun hh => hcr ⟨hc, hh⟩
      match hch : lexChunks cs with
      | [] => rw [hch] at hy; simp at hy
      | q :: qs =>
        rw [hch] at hy
        simp only [List.head?_cons, Option.mem_def, Option.some.injEq] at hy
        have hqh := lexChunks_head cs q qs hch
        rw [hy, hb] at hqh
        simp at hqh
        exact hnext hqh.symm
  | case4 c cs hcr hnl hws ih =>
    rw [lexChunks, if_neg hcr, if_neg hnl, if_pos hws]
    refine ⟨?_, ?_⟩
    · rintro p hp hp1
      rcases List.mem_cons.mp hp with hp | hp
      · cases hp; simp at hp1
      · exact ih.1 p hp hp1
    · rw [List.chain'_cons']
      refine ⟨?_, ih.2⟩
      intro y _
      rintro ⟨ha, -⟩
      have hc : c = 0x0D := by simpa using congrArg List.head? ha
      rw [hc] at hws
      simp [wsCp, whiteSpaceCp, nlCp] at hws
  | case5 c cs hcr hnl hws ih =>
    rw [lexChunks, if_neg hcr, if_neg hnl, if_neg hws]
    refine ⟨?_, ?_⟩
    · rintro p hp hp1
      rcases List.mem_cons.mp hp with hp | hp
      · cases hp; simp at hp1
      · exact ih.1 p hp hp1
    · rw [List.chain'_cons']
      refine ⟨?_, ih.2⟩
      intro y _
      rintro ⟨ha, -⟩
      have hc : c = 0x0D := by simpa using congrArg List.head? ha
      rw [hc] at hnl
      simp [nlCp] at hnl

/-! ### Conformance utilities -/

/-- Unfolding of stream conformance at a cons cell. -/
theorem conformingFrom_cons_iff (strLen pos : Nat) (t : Token) (ts : List Token) :
    conformingFrom strLen pos (t :: ts) = true ↔
      t.start = pos ∧ t.start < t.stop ∧
      (∀ u, ts.head? = some u →
        ¬(t.tag = Tag.ws ∧ u.tag = Tag.ws) ∧ ¬(t.tag = Tag.nonws ∧ u.tag = Tag.nonws)) ∧
      conformingFrom strLen t.stop ts = true := by
  cases ts with
  | nil => simp [conformingFrom, and_assoc]
  | cons u us =>
    simp only [conformingFrom, Bool.and_eq_true, beq_iff_eq, decide_eq_true_eq,
      Bool.not_eq_true', List.head?_cons, Option.some.injEq, Bool.and_eq_false_iff,
      beq_eq_false_iff_ne, ne_eq]
    constructor
    · rintro ⟨⟨⟨h1, h2⟩, h3⟩, h4⟩
      refine ⟨h1, h2, ?_, h4⟩
      rintro v rfl
      rcases h3 with ⟨h3a, h3b⟩
      constructor
      · rintro ⟨ha, hb⟩
        rcases h3a with h | h <;> simp [ha, hb] at h
      · rintro ⟨ha, hb⟩
        rcases h3b with h | h <;> simp [ha, hb] at h
    · rintro ⟨h1, h2, h3, h4⟩
      rcases h3 u rfl with ⟨h3a, h3b⟩
      refine ⟨⟨⟨h1, h2⟩, ?_, ?_⟩, h4⟩
      · by_cases hw : t.tag = Tag.ws
        · right; intro hu; exact h3a ⟨hw, hu⟩
        · left; exact hw
      · by_cases hw : t.tag = Tag.nonws
        · right; intro hu; exact h3b ⟨hw, hu⟩
        · left; exact hw

/-- Every token of a conforming stream lies inside `[pos, strLen]`. -/
theorem conformingFrom_bounds (strLen : Nat) :
    ∀ (ts : List Token) (pos : Nat), conformingFrom strLen pos ts = true →
      ∀ t ∈ ts, pos ≤ t.start ∧ t.start < t.stop ∧ t.stop ≤ strLen := by
  intro ts
  induction ts with
  | nil => intro pos _ t ht; simp at ht
  | cons u us ih =>
    intro pos h t ht
    rw [conformingFrom_cons_iff] at h
    obtain ⟨h1, h2, -, h4⟩ := h
    rcases List.mem_cons.mp ht with rfl | ht
    · refine ⟨h1.ge, h2, ?_⟩
      have : ∀ v ∈ us, t.stop ≤ v.start ∧ v.start < v.stop ∧ v.stop ≤ strLen :=
        fun v hv => (ih t.stop h4 v hv)
      cases us with
      | nil =>
        have : t.stop = strLen := by simpa [conformingFrom] using h4
        omega
      | cons w ws =>
        have hw := this w (List.mem_cons_self _ _)
        omega
    · have := ih u.stop h4 t ht
      omega

/-! ### End of input (C6) -/

/-- A state that has a label marshals successfully, and the marshalled
record reports the supplied end position as its line end. -/
theorem marshal_of_hasLabel (str : Str) (linum lineStart stop : Nat) (s : LState)
    (h : hasLabel s = true) :
    ∃ m, marshal str linum lineStart s stop = some m ∧
      m.lineEnd = stop ∧ m.linum = linum ∧ m.lineStart = lineStart := by
  cases s with
  | lineBreak => simp [hasLabel] at h
  | beginWs => simp [hasLabel] at h
  | label n lab => exact ⟨_, rfl, rfl, rfl, rfl⟩
  | labelWs n lab ms => exact ⟨_, rfl, rfl, rfl, rfl⟩
  | mapping n lab ms me => exact ⟨_, rfl, rfl, rfl, rfl⟩
  | mappingWs n lab ms me => exact ⟨_, rfl, rfl, rfl, rfl⟩

/-- C6: when a conforming stream is exhausted while the line state still
has a label (`Label`, `LabelWs`, `Mapping` or `MappingWs`), `parse` emits
exactly one additional final record, whose line end is the text length;
when it is exhausted in state `LineBreak` or `BeginWs`, nothing further
is emitted. -/
theorem C6_end_of_input (str : Str) (ts : List Token) (ps' : PState)
    (outs : List TagMapping)
    (hconf : conforming str ts = true)
    (hrun : runSteps str ts initPS = .ok (ps', outs)) :
    (hasLabel ps'.s = true →
      ∃ m, parse str ts = .ok (outs ++ [m]) ∧ m.lineEnd = str.length) ∧
    (hasLabel ps'.s = false → parse str ts = .ok outs) := by
  have hrun' : runSteps str ts ⟨1, 0, .lineBreak, []⟩ = .ok (ps', outs) := hrun
  constructor
  · intro hlab
    obtain ⟨m, hm, hend, -, -⟩ :=
      marshal_of_hasLabel str ps'.linum ps'.lineStart str.length ps'.s hlab
    refine ⟨m, ?_, hend⟩
    unfold parse parseAux
    rw [hrun']
    simp [hlab, hm]
  · intro hlab
    unfold parse parseAux
    rw [hrun']
    simp [hlab]

/-- Witness for C6 on the input `"a"` with no trailing line break: the
stream is exhausted in state `Label`, and the single emitted record ends
at the text length 1. -/
theorem C6_end_of_input_witness :
    conforming ['a'] [⟨Tag.nonws, 0, 1⟩] = true ∧
    runSteps ['a'] [⟨Tag.nonws, 0, 1⟩] initPS =
      .ok (⟨1, 0, .label 0 ['a'], [[]]⟩, []) ∧
    (∃ m, parse ['a'] [⟨Tag.nonws, 0, 1⟩] = .ok ([] ++ [m]) ∧ m.lineEnd = 1) :=
  ⟨by decide, by decide,
    (C6_end_of_input ['a'] [⟨Tag.nonws, 0, 1⟩] ⟨1, 0, .label 0 ['a'], [[]]⟩ []
      (by decide) (by decide)).1 rfl⟩

/-! ### Streams with no content (C7) -/

/-- Processing tokens none of which is Content, from a state without a
label (and, if in `BeginWs`, not about to read another Whitespace token),
succeeds, emits nothing, touches neither error path, and ends without a
label. -/
theorem noContent_run (str : Str) :
    ∀ (ts : List Token) (strLen pos : Nat) (ps : PState),
      conformingFrom strLen pos ts = true →
      (∀ t ∈ ts, t.tag ≠ Tag.nonws) →
      hasLabel ps.s = false →
      (ps.s = .beginWs → ∀ u, ts.head? = some u → u.tag ≠ Tag.ws) →
      ∃ ps2, runSteps str ts ps = .ok (ps2, []) ∧ hasLabel ps2.s = false := by
  intro ts
  induction ts with
  | nil =>
    intro strLen pos ps _ _ hlab _
    exact ⟨ps, rfl, hlab⟩
  | cons t ts ih =>
    intro strLen pos ps hconf hnc hlab hbw
    rw [conformingFrom_cons_iff] at hconf
    obtain ⟨-, -, hadj, hconf'⟩ := hconf
    cases htag : t.tag with
    | nonws => exact absurd htag (hnc t (List.mem_cons_self _ _))
    | nl =>
      obtain ⟨ps2, hrun, hlab2⟩ :=
        ih strLen t.stop ⟨ps.linum + 1, t.stop, .lineBreak, ps.wsStack⟩ hconf'
          (fun u hu => hnc u (List.mem_cons_of_mem _ hu)) rfl (by intro h; cases h)
      refine ⟨ps2, ?_, hlab2⟩
      simp only [runSteps, step, htag, hlab, Bool.false_eq_true, if_false, hrun]
      rfl
    | ws =>
      cases hs : ps.s with
      | lineBreak =>
        obtain ⟨ps2, hrun, hlab2⟩ :=
          ih strLen t.stop { ps with s := .beginWs } hconf'
            (fun u hu => hnc u (List.mem_cons_of_mem _ hu)) rfl
            (by
              intro _ u hu hut
              exact (hadj u hu).1 ⟨htag, hut⟩)
        refine ⟨ps2, ?_, hlab2⟩
        simp only [runSteps, step, htag, hs, hrun]
        rfl
      | beginWs => exact absurd htag (hbw hs t rfl)
      | label n lab => rw [hs] at hlab; simp [hasLabel] at hlab
      | labelWs n lab ms => rw [hs] at hlab; simp [hasLabel] at hlab
      | mapping n lab ms me => rw [hs] at hlab; simp [hasLabel] at hlab
      | mappingWs n lab ms me => rw [hs] at hlab; simp [hasLabel] at hlab

/-- C7: on a conforming token stream containing no Content token (only
line breaks and whitespace, or nothing at all), `parse` produces the
empty output sequence and raises no error. -/
theorem C7_no_content (str : Str) (ts : List Token)
    (h1 : conforming str ts = true) (h2 : ∀ t ∈ ts, t.tag ≠ Tag.nonws) :
    parse str ts = .ok [] := by
  obtain ⟨ps2, hrun, hlab⟩ :=
    noContent_run str ts str.length 0 initPS h1 h2 rfl (by intro h; cases h)
  have hrun' : runSteps str ts ⟨1, 0, .lineBreak, []⟩ = .ok (ps2, []) := hrun
  unfold parse parseAux
  rw [hrun']
  simp [hlab]

/-- Witness for C7: a whitespace-only two-line input. -/
theorem C7_no_content_witness :
    conforming [' ', '\n'] [⟨Tag.ws, 0, 1⟩, ⟨Tag.nl, 1, 2⟩] = true ∧
    parse [' ', '\n'] [⟨Tag.ws, 0, 1⟩, ⟨Tag.nl, 1, 2⟩] = .ok [] :=
  ⟨by decide,
    C7_no_content [' ', '\n'] [⟨Tag.ws, 0, 1⟩, ⟨Tag.nl, 1, 2⟩] (by decide) (by decide)⟩

/-! ### Substring and content-token bookkeeping -/

theorem substring_length (s : Str) (a b : Nat) (h1 : a ≤ b) (h2 : b ≤ s.length) :
    (substring s a b).length = b - a := by
  simp only [substring, if_pos h1, List.length_drop, List.length_take]
  omega

theorem contentToks_cons_nonws (t : Token) (ht : t.tag = Tag.nonws) (l : List Token) :
    contentToks (t :: l) = t :: contentToks l := by
  simp [contentToks, List.filter_cons, ht]

theorem contentToks_cons_other (t : Token) (ht : t.tag ≠ Tag.nonws) (l : List Token) :
    contentToks (t :: l) = contentToks l := by
  have : (t.tag == Tag.nonws) = false := by simpa using ht
  simp [contentToks, List.filter_cons, this]

theorem extMapping1_skip (str : Str) (t : Token) (tail : List Token)
    (ht : t.tag ≠ Tag.nonws) : extMapping1 str (t :: tail) = extMapping1 str tail := by
  simp only [extMapping1, contentToks_cons_other t ht]

theorem extMapping2_skip (str : Str) (ms me : Nat) (t : Token) (tail : List Token)
    (ht : t.tag ≠ Tag.nonws) :
    extMapping2 str ms me (t :: tail) = extMapping2 str ms me tail := by
  simp only [extMapping2, contentToks_cons_other t ht]

theorem extMapping1_cons (str : Str) (t : Token) (tail : List Token)
    (ht : t.tag = Tag.nonws) :
    extMapping1 str (t :: tail) = extMapping2 str t.start t.stop tail := by
  simp only [extMapping1, extMapping2, contentToks_cons_nonws t ht]
  cases h : contentToks tail with
  | nil => simp
  | cons c2 more => simp [List.getLast?_cons_cons]

theorem extMapping2_cons (str : Str) (ms me : Nat) (t : Token) (tail : List Token)
    (ht : t.tag = Tag.nonws) :
    extMapping2 str ms me (t :: tail) = extMapping2 str ms t.stop tail := by
  simp only [extMapping2, contentToks_cons_nonws t ht]
  cases h : contentToks tail with
  | nil => simp
  | cons c2 more => simp [List.getLast?_cons_cons]

theorem lineMapping_skip (str : Str) (t : Token) (tail : List Token)
    (ht : t.tag ≠ Tag.nonws) : lineMapping str (t :: tail) = lineMapping str tail := by
  simp only [lineMapping, contentToks_cons_other t ht]

theorem lineMapping_cons_nonws (str : Str) (ft : Token) (tail : List Token)
    (h : ft.tag = Tag.nonws) :
    lineMapping str (ft :: tail) = extMapping1 str tail := by
  simp only [lineMapping, extMapping1, contentToks_cons_nonws ft h]
  cases h2 : contentToks tail with
  | nil => rfl
  | cons c2 more => rfl

theorem firstContent_cons_nonws (t : Token) (l : List Token) (ht : t.tag = Tag.nonws) :
    firstContent (t :: l) = some t := by
  simp [firstContent, List.find?_cons, ht]

theorem firstContent_cons_other (t : Token) (l : List Token) (ht : t.tag ≠ Tag.nonws) :
    firstContent (t :: l) = firstContent l := by
  have : (t.tag == Tag.nonws) = false := by simpa using ht
  simp [firstContent, List.find?_cons, this]

/-! ### Conformance decomposition -/

theorem conformingFrom_contig (strLen : Nat) :
    ∀ (ts : List Token) (pos : Nat), conformingFrom strLen pos ts = true → Contig pos ts := by
  intro ts
  induction ts with
  | nil => intro pos _; trivial
  | cons t ts ih =>
    intro pos h
    rw [conformingFrom_cons_iff] at h
    exact ⟨h.1, h.2.1, ih t.stop h.2.2.2⟩

theorem conformingFrom_chain (strLen : Nat) :
    ∀ (ts : List Token) (pos : Nat), conformingFrom strLen pos ts = true →
      List.Chain' adjOK ts := by
  intro ts
  induction ts with
  | nil => intro pos _; exact List.chain'_nil
  | cons t ts ih =>
    intro pos h
    rw [conformingFrom_cons_iff] at h
    rw [List.chain'_cons']
    exact ⟨fun u hu => h.2.2.1 u hu, ih t.stop h.2.2.2⟩

theorem endOf_cons (p : Nat) (t : Token) (a : List Token) :
    endOf p (t :: a) = endOf t.stop a := by
  cases a with
  | nil => rfl
  | cons u us =>
    simp only [endOf, List.getLast?_cons_cons]
    cases hg : (u :: us).getLast? with
    | none => simp at hg
    | some v => rfl

theorem conformingFrom_append_right (strLen : Nat) :
    ∀ (a : List Token) (b : List Token) (pos : Nat),
      conformingFrom strLen pos (a ++ b) = true →
      conformingFrom strLen (endOf pos a) b = true := by
  intro a
  induction a with
  | nil => intro b pos h; exact h
  | cons t a ih =>
    intro b pos h
    rw [List.cons_append, conformingFrom_cons_iff] at h
    rw [endOf_cons]
    exact ih b t.stop h.2.2.2

theorem contig_append_left :
    ∀ (a b : List Token) (pos : Nat), Contig pos (a ++ b) → Contig pos a := by
  intro a
  induction a with
  | nil => intro b pos _; trivial
  | cons t a ih =>
    intro b pos h
    exact ⟨h.1, h.2.1, ih b t.stop h.2.2⟩

/-! ### Composition of machine runs -/

theorem runSteps_append_err (str : Str) :
    ∀ (a : List Token) (b : List Token) (ps : PState) (e : PErr),
      runSteps str a ps = .error e → runSteps str (a ++ b) ps = .error e := by
  intro a
  induction a with
  | nil => intro b ps e h; cases h
  | cons t a ih =>
    intro b ps e h
    simp only [runSteps] at h
    simp only [List.cons_append, runSteps]
    cases hs : step str ps t with
    | error e2 => rw [hs] at h; cases h; rfl
    | ok v =>
      obtain ⟨ps2, out⟩ := v
      rw [hs] at h
      dsimp only at h ⊢
      cases h2 : runSteps str a ps2 with
      | error e2 =>
        rw [h2] at h
        cases h
        rw [List.append_eq, ih b ps2 e h2]
      | ok v2 => rw [h2] at h; cases h

theorem runSteps_append_ok (str : Str) :
    ∀ (a : List Token) (b : List Token) (ps ps2 : PState) (o1 : List TagMapping),
      runSteps str a ps = .ok (ps2, o1) →
      runSteps str (a ++ b) ps =
        (match runSteps str b ps2 with
         | .ok (ps3, o2) => .ok (ps3, o1 ++ o2)
         | .error e => .error e) := by
  intro a
  induction a with
  | nil =>
    intro b ps ps2 o1 h
    simp only [runSteps, Except.ok.injEq, Prod.mk.injEq] at h
    obtain ⟨rfl, rfl⟩ := h
    simp only [List.nil_append]
    cases h2 : runSteps str b ps with
    | error e => rfl
    | ok v2 => cases v2; simp
  | cons t a ih =>
    intro b ps ps2 o1 h
    simp only [runSteps] at h
    simp only [List.cons_append, runSteps]
    cases hs : step str ps t with
    | error e2 => rw [hs] at h; cases h
    | ok v =>
      obtain ⟨ps1, out⟩ := v
      rw [hs] at h
      dsimp only at h ⊢
      cases h1 : runSteps str a ps1 with
      | error e2 => rw [h1] at h; cases h
      | ok v1 =>
        obtain ⟨ps1', o1'⟩ := v1
        rw [h1] at h
        dsimp only at h
        cases h
        rw [List.append_eq, ih b ps1 ps2 o1' h1]
        cases h2 : runSteps str b ps2 with
        | error e => rfl
        | ok v2 => cases v2; simp

theorem parseAux_append_err (str : Str) (a b : List Token) (ps : PState) (e : PErr)
    (h : runSteps str a ps = .error e) : parseAux str (a ++ b) ps = .error e := by
  unfold parseAux
  rw [runSteps_append_err str a b ps e h]

theorem parseAux_append_ok (str : Str) (a b : List Token) (ps ps2 : PState)
    (o1 : List TagMapping) (h : runSteps str a ps = .ok (ps2, o1)) :
    parseAux str (a ++ b) ps =
      (match parseAux str b ps2 with
       | .ok o2 => .ok (o1 ++ o2)
       | .error e => .error e) := by
  unfold parseAux
  rw [runSteps_append_ok str a b ps ps2 o1 h]
  cases h2 : runSteps str b ps2 with
  | error e => rfl
  | ok v2 =>
    obtain ⟨ps3, o2⟩ := v2
    by_cases hl : hasLabel ps3.s = true
    · simp only [hl, if_true]
      cases h3 : marshal str ps3.linum ps3.lineStart ps3.s str.length with
      | some m => simp
      | none => simp
    · simp only [Bool.not_eq_true] at hl
      simp [hl]

/-! ### Decomposition of `splitLines` -/

theorem splitLines_ne_nil (strLen : Nat) :
    ∀ (ts : List Token) (L p : Nat), splitLines strLen L p ts ≠ [] := by
  intro ts
  induction ts with
  | nil => intro L p; simp [splitLines]
  | cons t ts ih =>
    intro L p
    by_cases h : t.tag = Tag.nl
    · simp [splitLines, h]
    · simp only [splitLines, if_neg h]
      cases h2 : splitLines strLen L p ts with
      | nil => exact absurd h2 (ih L p)
      | cons l ls => simp

theorem splitLines_decomp (strLen : Nat) :
    ∀ (ts : List Token) (L p : Nat),
      splitLines strLen L p ts =
        match ts.dropWhile (fun t => !(t.tag == Tag.nl)) with
        | [] => [⟨L, p, strLen, ts.takeWhile (fun t => !(t.tag == Tag.nl))⟩]
        | u :: ts' =>
          ⟨L, p, u.stop, ts.takeWhile (fun t => !(t.tag == Tag.nl))⟩ ::
            splitLines strLen (L + 1) u.stop ts' := by
  intro ts
  induction ts with
  | nil => intro L p; rfl
  | cons t ts ih =>
    intro L p
    by_cases h : t.tag = Tag.nl
    · have hb : (t.tag == Tag.nl) = true := by simp [h]
      simp only [List.dropWhile_cons, List.takeWhile_cons, hb, Bool.not_true,
        Bool.false_eq_true, if_false]
      simp [splitLines, h]
    · have hb : (t.tag == Tag.nl) = false := by simp [h]
      simp only [List.dropWhile_cons, List.takeWhile_cons, hb, Bool.not_false, if_true]
      simp only [splitLines, if_neg h]
      rw [ih L p]
      cases h2 : ts.dropWhile (fun t => !(t.tag == Tag.nl)) with
      | nil => simp
      | cons u ts' => simp

/-! ### The whitespace stack: chain facts and the pop loop -/

/-- Below the top of a chain-shaped stack, every entry is a strictly
shorter prefix of the top. -/
theorem stackChain_mem_lt :
    ∀ (rest : List Str) (top : Str),
      List.Chain' (fun a b => b <+: a ∧ b ≠ a) (top :: rest) →
      ∀ x ∈ rest, x <+: top ∧ x.length < top.length := by
  intro rest
  induction rest with
  | nil => intro top _ x hx; simp at hx
  | cons r rest' ih =>
    intro top hch x hx
    rw [List.chain'_cons] at hch
    obtain ⟨⟨hpre, hne⟩, hch'⟩ := hch
    have hrlen : r.length < top.length := by
      rcases Nat.lt_or_ge r.length top.length with h | h
      · exact h
      · exact absurd (hpre.eq_of_length (Nat.le_antisymm hpre.length_le h)) hne
    rcases List.mem_cons.mp hx with rfl | hx
    · exact ⟨hpre, hrlen⟩
    · obtain ⟨h1, h2⟩ := ih r hch' x hx
      exact ⟨h1.trans hpre, by omega⟩

/-- The length of a chain-shaped stack is bounded by one more than the
length of its top entry (the bottom entry is empty and each level adds at
least one character). -/
theorem stackInv_length_le :
    ∀ (rest : List Str) (top : Str),
      (top :: rest).getLast? = some [] →
      List.Chain' (fun a b => b <+: a ∧ b ≠ a) (top :: rest) →
      (top :: rest).length ≤ top.length + 1 := by
  intro rest
  induction rest with
  | nil =>
    intro top hlast _
    simp at hlast
    simp [hlast]
  | cons r rest' ih =>
    intro top hlast hch
    rw [List.chain'_cons] at hch
    obtain ⟨⟨hpre, hne⟩, hch'⟩ := hch
    have hrlen : r.length < top.length := by
      rcases Nat.lt_or_ge r.length top.length with h | h
      · exact h
      · exact absurd (hpre.eq_of_length (Nat.le_antisymm hpre.length_le h)) hne
    have hlast' : (r :: rest').getLast? = some [] := by
      rwa [List.getLast?_cons_cons] at hlast
    have := ih r hlast' hch'
    simp only [List.length_cons] at this ⊢
    omega

/-- Dropping entries different from a member `w` exposes `w` on top. -/
theorem dropWhile_mem_head :
    ∀ (l : List Str) (w : Str), w ∈ l →
      (l.dropWhile (fun e => e != w)).head? = some w := by
  intro l
  induction l with
  | nil => intro w hw; simp at hw
  | cons a l ih =>
    intro w hw
    by_cases ha : a = w
    · subst ha
      rw [List.dropWhile_cons_of_neg (by simp)]
      rfl
    · have hb : (a != w) = true := by simp [ha]
      simp only [List.dropWhile_cons, hb, if_true]
      exact ih w (by rcases List.mem_cons.mp hw with h | h; exact absurd h.symm ha; exact h)

/-- On a chain-shaped stack, if `ws` occurs on the stack, the pop loop
finds it, leaving exactly the entries from that occurrence down. -/
theorem popLoop_found :
    ∀ (stack : List Str) (w : Str),
      List.Chain' (fun a b => b <+: a ∧ b ≠ a) stack →
      w ∈ stack →
      popLoop w stack = .found (stack.dropWhile (fun e => e != w)) := by
  intro stack
  induction stack with
  | nil => intro w _ hw; simp at hw
  | cons top rest ih =>
    intro w hch hw
    by_cases htop : w = top
    · rw [List.dropWhile_cons_of_neg (by simp [htop])]
      simp [popLoop, htop]
    · have hmem : w ∈ rest := by
        rcases List.mem_cons.mp hw with h | h
        · exact absurd h htop
        · exact h
      have hlen := (stackChain_mem_lt rest top hch w hmem).2
      have hpop : ¬(top.length ≤ w.length) := by omega
      rw [List.dropWhile_cons_of_pos (by simp [Ne.symm, htop])]
      simp only [popLoop, if_neg htop, if_neg hpop]
      exact ih w (List.Chain'.tail hch) hmem

/-- On a stack whose bottom entry is the empty string, a non-empty `ws`
that occurs nowhere on the stack makes the pop loop report the
inconsistency error (it can never underflow). -/
theorem popLoop_notfound :
    ∀ (rest : List Str) (top : Str) (w : Str),
      (top :: rest).getLast? = some [] →
      w ∉ top :: rest → w ≠ [] →
      ∃ lvl, popLoop w (top :: rest) = .inconsistent lvl := by
  intro rest
  induction rest with
  | nil =>
    intro top w hlast hmem hne
    simp at hlast
    subst hlast
    have h1 : w ≠ [] := hne
    have h2 : ([] : Str).length ≤ w.length := by simp
    exact ⟨1, by simp [popLoop, h1, h2]⟩
  | cons r rest' ih =>
    intro top w hlast hmem hne
    have htop : w ≠ top := fun h => hmem (h ▸ List.mem_cons_self _ _)
    by_cases hlen : top.length ≤ w.length
    · exact ⟨rest'.length + 1 + 1, by simp [popLoop, htop, hlen]⟩
    · have hlast' : (r :: rest').getLast? = some [] := by
        rwa [List.getLast?_cons_cons] at hlast
      have hmem' : w ∉ r :: rest' := fun h => hmem (List.mem_cons_of_mem _ h)
      obtain ⟨lvl, hl⟩ := ih r w hlast' hmem' hne
      refine ⟨lvl, ?_⟩
      conv_lhs => rw [popLoop]
      rw [if_neg htop, if_neg hlen, hl]

/-- Facts about a successful `specNest` transition: the invariant is
preserved, the new stack is non-empty with the line's leading whitespace
on top, and it grows by at most one entry. -/
theorem specNest_ok_facts (w : Str) (S S' : List Str)
    (hInv : StackInv S) (h : specNest w S = .ok S') :
    StackInv S' ∧ S' ≠ [] ∧ S'.head? = some w ∧ S'.length ≤ S.length + 1 := by
  by_cases hw : w = []
  · rw [specNest.eq_def, if_pos hw] at h
    cases h
    subst hw
    refine ⟨Or.inr ⟨rfl, List.chain'_singleton _⟩, by simp, rfl, by simp⟩
  · rw [specNest.eq_def, if_neg hw] at h
    cases S with
    | nil => cases h
    | cons top rest =>
      dsimp only at h
      obtain ⟨hlast, hch⟩ : (top :: rest).getLast? = some [] ∧
          List.Chain' (fun a b => b <+: a ∧ b ≠ a) (top :: rest) := by
        rcases hInv with h' | h'
        · simp at h'
        · exact h'
      by_cases h1 : w = top
      · rw [if_pos h1] at h
        cases h
        exact ⟨Or.inr ⟨hlast, hch⟩, by simp, by simp [h1], by simp⟩
      · rw [if_neg h1] at h
        by_cases h2 : top.isPrefixOf w
        · rw [if_pos h2] at h
          cases h
          have hpre : top <+: w := List.isPrefixOf_iff_prefix.mp h2
          refine ⟨Or.inr ⟨?_, ?_⟩, by simp, rfl, by simp⟩
          · rw [List.getLast?_cons_cons]
            exact hlast
          · rw [List.chain'_cons]
            exact ⟨⟨hpre, fun hh => h1 hh.symm⟩, hch⟩
        · rw [if_neg h2] at h
          by_cases h3 : (top :: rest).contains w
          · rw [if_pos h3] at h
            cases h
            have hmem : w ∈ top :: rest := by simpa using h3
            have hne : (top :: rest).dropWhile (fun e => e != w) ≠ [] := by
              intro hh
              rw [List.dropWhile_eq_nil_iff] at hh
              have := hh w hmem
              simp at this
            have hsuf : (top :: rest).dropWhile (fun e => e != w) <:+ (top :: rest) :=
              List.dropWhile_suffix _
            refine ⟨Or.inr ⟨?_, hch.suffix hsuf⟩, hne, dropWhile_mem_head _ w hmem,
              Nat.le_succ_of_le (List.dropWhile_sublist _).length_le⟩
            obtain ⟨pre, hpre⟩ := hsuf
            cases hg : ((top :: rest).dropWhile (fun e => e != w)).getLast? with
            | none => exact absurd (List.getLast?_eq_none_iff.mp hg) hne
            | some x =>
              rw [← hpre, List.getLast?_append, hg] at hlast
              simpa using hlast
          · rw [if_neg h3] at h
            cases h

/-- `computeNesting` agrees with the reference transition `specNest` on
every reachable stack: same updated stack and nesting `|stack| - 1` on
success, the first-line `TagError` exactly when the reference reports
condition (a), and the inconsistent-whitespace `TagError` exactly when
the reference reports an ambiguous dedent (condition (b)).  `tstart` and
`tstop` are the span of the Content token that triggered the
computation. -/
theorem computeNesting_eq (str : Str) (L p tstart tstop : Nat) (S : List Str)
    (hInv : StackInv S) (hw : substring str p tstart ≠ []) :
    match specNest (substring str p tstart) S with
    | .ok S' => computeNesting str L p tstart tstop S = .ok (S'.length - 1, S')
    | .error .errFirst =>
        computeNesting str L p tstart tstop S =
          .error (.tagError .firstNonempty L (substring str p tstop))
    | .error .errInconsistent =>
        ∃ lvl, computeNesting str L p tstart tstop S =
          .error (.tagError (.inconsistentWs lvl) L (substring str p tstop)) := by
  rw [specNest.eq_def, if_neg hw]
  cases S with
  | nil =>
    dsimp only
    simp only [computeNesting]
  | cons top rest =>
    obtain ⟨hlast, hch⟩ : (top :: rest).getLast? = some [] ∧
        List.Chain' (fun a b => b <+: a ∧ b ≠ a) (top :: rest) := by
      rcases hInv with h' | h'
      · simp at h'
      · exact h'
    dsimp only
    by_cases h1 : substring str p tstart = top
    · rw [if_pos h1]
      dsimp only
      have hpre : top.isPrefixOf (substring str p tstart) = true :=
        List.isPrefixOf_iff_prefix.mpr (h1 ▸ List.prefix_refl _)
      simp only [computeNesting, hpre, if_true, if_pos h1]
      simp
    · rw [if_neg h1]
      by_cases h2 : top.isPrefixOf (substring str p tstart) = true
      · rw [if_pos h2]
        dsimp only
        simp only [computeNesting, h2, if_true, if_neg h1]
        simp
      · rw [if_neg h2]
        by_cases h3 : (top :: rest).contains (substring str p tstart) = true
        · rw [if_pos h3]
          dsimp only
          have hmem : substring str p tstart ∈ top :: rest := by simpa using h3
          simp only [computeNesting, h2, Bool.false_eq_true, if_false,
            popLoop_found (top :: rest) (substring str p tstart) hch hmem]
        · rw [if_neg h3]
          dsimp only
          have hmem : substring str p tstart ∉ top :: rest := by
            intro hh
            exact h3 (by simpa using hh)
          obtain ⟨lvl, hl⟩ := popLoop_notfound rest top (substring str p tstart) hlast hmem hw
          refine ⟨lvl, ?_⟩
          simp only [computeNesting, h2, Bool.false_eq_true, if_false, hl]

/-- Running the remainder of a line after its label has been read: the
parser stays on the same line, never touches the whitespace stack, emits
nothing, never fails, and ends in a labelled state whose marshalled
record carries the nesting and label fixed when the label was read,
together with the mapping span determined by `stateMapping`. -/
theorem runTail (str : Str) :
    ∀ (tail : List Token) (q L p : Nat) (S : List Str) (n : Nat) (lab : Str) (s : LState),
      Contig q tail →
      (∀ t ∈ tail, t.tag ≠ Tag.nl) →
      List.Chain' adjOK tail →
      (∀ u, tail.head? = some u →
        (justWsState s = true → u.tag ≠ Tag.ws) ∧
        (justContentState s = true → u.tag ≠ Tag.nonws)) →
      labelState n lab s →
      msAt q s →
      ∃ s', runSteps str tail ⟨L, p, s, S⟩ = .ok (⟨L, p, s', S⟩, []) ∧
        hasLabel s' = true ∧
        ∀ e, marshal str L p s' e =
          some ⟨L, p, e, n, lab, stateMapping str s tail⟩ := by
  intro tail
  induction tail with
  | nil =>
    intro q L p S n lab s _ _ _ _ hls _
    refine ⟨s, rfl, ?_, ?_⟩ <;>
      cases s with
      | lineBreak => simp [labelState] at hls
      | beginWs => simp [labelState] at hls
      | label n' lab' =>
        first
          | rfl
          | (intro e
             simp only [labelState] at hls
             obtain ⟨rfl, rfl⟩ := hls
             simp [marshal, stateMapping, extMapping1, contentToks])
      | labelWs n' lab' ms =>
        first
          | rfl
          | (intro e
             simp only [labelState] at hls
             obtain ⟨rfl, rfl⟩ := hls
             simp [marshal, stateMapping, extMapping1, contentToks])
      | mapping n' lab' ms me =>
        first
          | rfl
          | (intro e
             simp only [labelState] at hls
             obtain ⟨rfl, rfl⟩ := hls
             simp [marshal, stateMapping, extMapping2, contentToks])
      | mappingWs n' lab' ms me =>
        first
          | rfl
          | (intro e
             simp only [labelState] at hls
             obtain ⟨rfl, rfl⟩ := hls
             simp [marshal, stateMapping, extMapping2, contentToks])
  | cons t tail' ih =>
    intro q L p S n lab s hcont hnl hch hha hls hms
    obtain ⟨hstart, hlt, hcont'⟩ := hcont
    have hnl' : ∀ u ∈ tail', u.tag ≠ Tag.nl := fun u hu => hnl u (List.mem_cons_of_mem _ hu)
    have hcht := List.chain'_cons'.mp hch
    have htnl : t.tag ≠ Tag.nl := hnl t (List.mem_cons_self _ _)
    cases htag : t.tag with
    | nl => exact absurd htag htnl
    | ws =>
      cases s with
      | lineBreak => simp [labelState] at hls
      | beginWs => simp [labelState] at hls
      | labelWs n' lab' ms => exact absurd htag ((hha t rfl).1 rfl)
      | mappingWs n' lab' ms me => exact absurd htag ((hha t rfl).1 rfl)
      | label n' lab' =>
        obtain ⟨s', hrun, hlab, hm⟩ :=
          ih t.stop L p S n lab (.labelWs n' lab' t.stop) hcont' hnl' hcht.2
            (by
              intro u hu
              refine ⟨?_, ?_⟩
              · intro _ hut
                exact ((hcht.1 u hu).1) ⟨htag, hut⟩
              · intro hjc; cases hjc)
            hls rfl
        refine ⟨s', ?_, hlab, ?_⟩
        · simp only [runSteps, step, htag]
          rw [hrun]
          rfl
        · intro e
          rw [hm e, stateMapping, stateMapping, extMapping1_skip str t tail' (by simp [htag])]
      | mapping n' lab' ms me =>
        obtain ⟨s', hrun, hlab, hm⟩ :=
          ih t.stop L p S n lab (.mappingWs n' lab' ms me) hcont' hnl' hcht.2
            (by
              intro u hu
              refine ⟨?_, ?_⟩
              · intro _ hut
                exact ((hcht.1 u hu).1) ⟨htag, hut⟩
              · intro hjc; cases hjc)
            hls trivial
        refine ⟨s', ?_, hlab, ?_⟩
        · simp only [runSteps, step, htag]
          rw [hrun]
          rfl
        · intro e
          rw [hm e, stateMapping, stateMapping, extMapping2_skip str ms me t tail' (by simp [htag])]
    | nonws =>
      cases s with
      | lineBreak => simp [labelState] at hls
      | beginWs => simp [labelState] at hls
      | label n' lab' => exact absurd htag ((hha t rfl).2 rfl)
      | mapping n' lab' ms me => exact absurd htag ((hha t rfl).2 rfl)
      | labelWs n' lab' ms =>
        have hmsq : ms = q := hms
        obtain ⟨s', hrun, hlab, hm⟩ :=
          ih t.stop L p S n lab (.mapping n' lab' ms t.stop) hcont' hnl' hcht.2
            (by
              intro u hu
              refine ⟨?_, ?_⟩
              · intro hjw; cases hjw
              · intro _ hut
                exact ((hcht.1 u hu).2) ⟨htag, hut⟩)
            hls trivial
        refine ⟨s', ?_, hlab, ?_⟩
        · simp only [runSteps, step, htag]
          rw [hrun]
          rfl
        · intro e
          rw [hm e, stateMapping, stateMapping, extMapping1_cons str t tail' htag,
            hmsq, ← hstart]
      | mappingWs n' lab' ms me =>
        obtain ⟨s', hrun, hlab, hm⟩ :=
          ih t.stop L p S n lab (.mapping n' lab' ms t.stop) hcont' hnl' hcht.2
            (by
              intro u hu
              refine ⟨?_, ?_⟩
              · intro hjw; cases hjw
              · intro _ hut
                exact ((hcht.1 u hu).2) ⟨htag, hut⟩)
            hls trivial
        refine ⟨s', ?_, hlab, ?_⟩
        · simp only [runSteps, step, htag]
          rw [hrun]
          rfl
        · intro e
          rw [hm e, stateMapping, stateMapping, extMapping2_cons str ms me t tail' htag]

theorem substring_self (s : Str) (a : Nat) : substring s a a = [] := by
  simp only [substring, if_pos (Nat.le_refl a)]
  exact List.drop_eq_nil_of_le (by simpa using List.length_take_le a s)

/-- Running one full logical line (its tokens up to, but excluding, the
line break) from the start-of-line state: a blank line leaves line
number, line start and stack untouched and ends without a label; a line
with content either fails exactly as the reference transition dictates
(with a `TagError` on the first Content token) or ends in a labelled
state over the updated stack, whose marshalled record carries the
reference nesting, the first Content token's text as label, and
`lineMapping`. -/
theorem runLine (str : Str) (ltoks : List Token) (L p : Nat) (S : List Str)
    (hcont : Contig p ltoks)
    (hnl : ∀ t ∈ ltoks, t.tag ≠ Tag.nl)
    (hch : List.Chain' adjOK ltoks)
    (hbd : ∀ t ∈ ltoks, t.stop ≤ str.length)
    (hInv : StackInv S) :
    (firstContent ltoks = none →
      ∃ s', runSteps str ltoks ⟨L, p, .lineBreak, S⟩ = .ok (⟨L, p, s', S⟩, []) ∧
        hasLabel s' = false) ∧
    (∀ ft, firstContent ltoks = some ft →
      ((specNest (substring str p ft.start) S = .error .errFirst →
          runSteps str ltoks ⟨L, p, .lineBreak, S⟩ =
            .error (.tagError .firstNonempty L (substring str p ft.stop))) ∧
       (specNest (substring str p ft.start) S = .error .errInconsistent →
          ∃ lvl, runSteps str ltoks ⟨L, p, .lineBreak, S⟩ =
            .error (.tagError (.inconsistentWs lvl) L (substring str p ft.stop))) ∧
       (∀ S', specNest (substring str p ft.start) S = .ok S' →
          ∃ s', runSteps str ltoks ⟨L, p, .lineBreak, S⟩ = .ok (⟨L, p, s', S'⟩, []) ∧
            hasLabel s' = true ∧
            ∀ e, marshal str L p s' e =
              some ⟨L, p, e, S'.length - 1, substring str ft.start ft.stop,
                    lineMapping str ltoks⟩))) := by
  cases ltoks with
  | nil =>
    refine ⟨fun _ => ⟨.lineBreak, rfl, rfl⟩, fun ft hft => ?_⟩
    simp [firstContent] at hft
  | cons t rest =>
    obtain ⟨hstart, hlt, hcont'⟩ := hcont
    have htnl : t.tag ≠ Tag.nl := hnl t (List.mem_cons_self _ _)
    have hcht := List.chain'_cons'.mp hch
    cases htag : t.tag with
    | nl => exact absurd htag htnl
    | nonws =>
      -- top-level line: the state machine resets the stack to `[""]`,
      -- and the leading whitespace is empty.
      have hfc : firstContent (t :: rest) = some t := firstContent_cons_nonws t rest htag
      have hwempty : substring str p t.start = [] := by
        rw [hstart]; exact substring_self str p
      have hsn : specNest (substring str p t.start) S = .ok [[]] := by
        rw [specNest.eq_def, if_pos hwempty]
      refine ⟨fun hh => by (rw [hfc] at hh; cases hh), fun ft hft => ?_⟩
      rw [hfc, Option.some.injEq] at hft
      subst hft
      refine ⟨fun hh => by (rw [hsn] at hh; cases hh),
              fun hh => by (rw [hsn] at hh; cases hh),
              fun S' hS' => ?_⟩
      rw [hsn, Except.ok.injEq] at hS'
      subst hS'
      obtain ⟨s', hrun, hlab, hm⟩ :=
        runTail str rest t.stop L p [[]] 0 (substring str t.start t.stop)
          (.label 0 (substring str t.start t.stop)) hcont'
          (fun u hu => hnl u (List.mem_cons_of_mem _ hu)) hcht.2
          (by
            intro u hu
            refine ⟨fun hjw => (nomatch hjw), fun _ hut => ?_⟩
            exact ((hcht.1 u hu).2) ⟨htag, hut⟩)
          ⟨rfl, rfl⟩ trivial
      refine ⟨s', ?_, hlab, ?_⟩
      · simp only [runSteps, step, htag]
        rw [hrun]
        rfl
      · intro e
        rw [hm e, stateMapping, lineMapping_cons_nonws str t rest htag]
        norm_num
    | ws =>
      cases rest with
      | nil =>
        refine ⟨fun _ => ⟨.beginWs, ?_, rfl⟩, fun ft hft => ?_⟩
        · simp only [runSteps, step, htag]
          rfl
        · rw [firstContent_cons_other t [] (by simp [htag]), firstContent] at hft
          cases hft
      | cons u rest' =>
        have hadj := hcht.1 u rfl
        have hunl : u.tag ≠ Tag.nl := hnl u (List.mem_cons_of_mem _ (List.mem_cons_self _ _))
        have huws : u.tag ≠ Tag.ws := by
          intro hh
          exact hadj.1 ⟨htag, hh⟩
        have hutag : u.tag = Tag.nonws := by
          cases hu : u.tag with
          | nl => exact absurd hu hunl
          | ws => exact absurd hu huws
          | nonws => rfl
        have hfc : firstContent (t :: u :: rest') = some u := by
          rw [firstContent_cons_other t _ (by simp [htag]),
            firstContent_cons_nonws u rest' hutag]
        obtain ⟨hustart, hult, hcont''⟩ := hcont'
        have hwne : substring str p u.start ≠ [] := by
          have hb : u.start ≤ str.length := by
            have := hbd u (List.mem_cons_of_mem _ (List.mem_cons_self _ _))
            omega
          have hlen : (substring str p u.start).length = u.start - p := by
            apply substring_length
            · omega
            · exact hb
          intro hh
          rw [hh] at hlen
          simp at hlen
          omega
        have hcn := computeNesting_eq str L p u.start u.stop S hInv hwne
        refine ⟨fun hh => by (rw [hfc] at hh; cases hh), fun ft hft => ?_⟩
        rw [hfc, Option.some.injEq] at hft
        subst hft
        have hcht' := List.chain'_cons'.mp hcht.2
        refine ⟨?_, ?_, ?_⟩
        · intro hsp
          rw [hsp] at hcn
          simp only [runSteps, step, htag, hutag]
          rw [hcn]
        · intro hsp
          rw [hsp] at hcn
          obtain ⟨lvl, hcl⟩ := hcn
          refine ⟨lvl, ?_⟩
          simp only [runSteps, step, htag, hutag]
          rw [hcl]
        · intro S' hsp
          rw [hsp] at hcn
          obtain ⟨s', hrun, hlab, hm⟩ :=
            runTail str rest' u.stop L p S' (S'.length - 1)
              (substring str u.start u.stop)
              (.label (S'.length - 1) (substring str u.start u.stop)) hcont''
              (fun v hv => hnl v (List.mem_cons_of_mem _ (List.mem_cons_of_mem _ hv)))
              hcht'.2
              (by
                intro v hv
                refine ⟨fun hjw => (nomatch hjw), fun _ hvt => ?_⟩
                exact ((hcht'.1 v hv).2) ⟨hutag, hvt⟩)
              ⟨rfl, rfl⟩ trivial
          refine ⟨s', ?_, hlab, ?_⟩
          · simp only [runSteps, step, htag, hutag]
            rw [hcn]
            dsimp only
            rw [hrun]
            rfl
          · intro e
            rw [hm e, stateMapping,
              lineMapping_skip str t (u :: rest') (by simp [htag]),
              lineMapping_cons_nonws str u rest' hutag]

/-! ### Small helpers for assembling the main correspondence -/

theorem dropWhile_head_false {α : Type} (p : α → Bool) :
    ∀ (l : List α) (u : α) (ts' : List α), l.dropWhile p = u :: ts' → p u = false := by
  intro l
  induction l with
  | nil => intro u ts' h; cases h
  | cons a l ih =>
    intro u ts' h
    by_cases hp : p a = true
    · rw [List.dropWhile_cons_of_pos hp] at h
      exact ih u ts' h
    · rw [List.dropWhile_cons_of_neg hp] at h
      cases h
      exact Bool.not_eq_true _ ▸ hp

theorem runSteps_nl_noLabel (str : Str) (u : Token) (hu : u.tag = Tag.nl)
    (L p : Nat) (S : List Str) (s : LState) (hs : hasLabel s = false) :
    runSteps str [u] ⟨L, p, s, S⟩ = .ok (⟨L + 1, u.stop, .lineBreak, S⟩, []) := by
  simp [runSteps, step, hu, hs]

theorem runSteps_nl_label (str : Str) (u : Token) (hu : u.tag = Tag.nl)
    (L p : Nat) (S : List Str) (s : LState) (m : TagMapping) (hs : hasLabel s = true)
    (hm : marshal str L p s u.stop = some m) :
    runSteps str [u] ⟨L, p, s, S⟩ = .ok (⟨L + 1, u.stop, .lineBreak, S⟩, [m]) := by
  simp [runSteps, step, hu, hs, hm]

theorem specRun_cons_blank (str : Str) (l : LineRec) (ls : List LineRec)
    (stack : List Str) (h : firstContent l.toks = none) :
    specRun str (l :: ls) stack = specRun str ls stack := by
  simp only [specRun, lineOut, h]

theorem specRun_cons_content_ok (str : Str) (l : LineRec) (ls : List LineRec)
    (stack : List Str) (ft : Token) (S' : List Str)
    (hft : firstContent l.toks = some ft)
    (hsn : specNest (substring str l.lineStart ft.start) stack = .ok S') :
    specRun str (l :: ls) stack =
      (match specRun str ls S' with
       | .ok outs => .ok (⟨l.linum, l.lineStart, l.lineEnd, S'.length - 1,
            substring str ft.start ft.stop, lineMapping str l.toks⟩ :: outs)
       | .error e => .error e) := by
  simp only [specRun, lineOut, hft, hsn]

theorem specRun_cons_content_err (str : Str) (l : LineRec) (ls : List LineRec)
    (stack : List Str) (ft : Token) (e : SpecErr)
    (hft : firstContent l.toks = some ft)
    (hsn : specNest (substring str l.lineStart ft.start) stack = .error e) :
    specRun str (l :: ls) stack = .error e := by
  simp only [specRun, lineOut, hft, hsn]

theorem parseAux_of_runSteps_noLabel (str : Str) (ts : List Token) (ps : PState)
    (ps2 : PState) (outs : List TagMapping)
    (hrun : runSteps str ts ps = .ok (ps2, outs)) (hlab : hasLabel ps2.s = false) :
    parseAux str ts ps = .ok outs := by
  unfold parseAux
  rw [hrun]
  simp [hlab]

theorem parseAux_of_runSteps_label (str : Str) (ts : List Token) (ps : PState)
    (ps2 : PState) (outs : List TagMapping) (m : TagMapping)
    (hrun : runSteps str ts ps = .ok (ps2, outs)) (hlab : hasLabel ps2.s = true)
    (hm : marshal str ps2.linum ps2.lineStart ps2.s str.length = some m) :
    parseAux str ts ps = .ok (outs ++ [m]) := by
  unfold parseAux
  rw [hrun]
  simp [hlab, hm]

theorem parseAux_of_runSteps_err (str : Str) (ts : List Token) (ps : PState) (e : PErr)
    (hrun : runSteps str ts ps = .error e) : parseAux str ts ps = .error e := by
  unfold parseAux
  rw [hrun]

/-- Main correspondence: on conforming token streams, the parser run from
any start-of-line state agrees with the line-level reference semantics —
identical outputs on success, and a `TagError` of the corresponding kind
on failure. -/
theorem parseAux_spec (str : Str) :
    ∀ (N : Nat) (ts : List Token) (L p : Nat) (S : List Str),
      ts.length ≤ N →
      conformingFrom str.length p ts = true →
      StackInv S →
      sameResult (parseAux str ts ⟨L, p, .lineBreak, S⟩)
        (specRun str (splitLines str.length L p ts) S) := by
  intro N
  induction N with
  | zero =>
    intro ts L p S hlen _ _
    have hts : ts = [] := List.eq_nil_of_length_eq_zero (Nat.le_zero.mp hlen)
    subst hts
    exact rfl
  | succ N ihN =>
    intro ts L p S hlen hconf hInv
    have hsplit : ts.takeWhile (fun t => !(t.tag == Tag.nl)) ++
        ts.dropWhile (fun t => !(t.tag == Tag.nl)) = ts :=
      List.takeWhile_append_dropWhile _ _
    have hcontig1 : Contig p (ts.takeWhile (fun t => !(t.tag == Tag.nl))) :=
      contig_append_left _ _ p
        (by rw [hsplit]; exact conformingFrom_contig str.length ts p hconf)
    have hpfx : ts.takeWhile (fun t => !(t.tag == Tag.nl)) <+: ts := List.takeWhile_prefix _
    have hnl1 : ∀ t ∈ ts.takeWhile (fun t => !(t.tag == Tag.nl)), t.tag ≠ Tag.nl := by
      intro t ht
      have := List.mem_takeWhile_imp ht
      simpa using this
    have hch1 : List.Chain' adjOK (ts.takeWhile (fun t => !(t.tag == Tag.nl))) :=
      List.Chain'.prefix (conformingFrom_chain str.length ts p hconf) hpfx
    have hbd1 : ∀ t ∈ ts.takeWhile (fun t => !(t.tag == Tag.nl)), t.stop ≤ str.length := by
      intro t ht
      exact (conformingFrom_bounds str.length ts p hconf t (hpfx.subset ht)).2.2
    have hLR := runLine str (ts.takeWhile (fun t => !(t.tag == Tag.nl))) L p S
      hcontig1 hnl1 hch1 hbd1 hInv
    rw [splitLines_decomp]
    cases hrest : ts.dropWhile (fun t => !(t.tag == Tag.nl)) with
    | nil =>
      have hts : ts.takeWhile (fun t => !(t.tag == Tag.nl)) = ts := by
        have h2 := hsplit
        rw [hrest, List.append_nil] at h2
        exact h2
      dsimp only
      cases hfc : firstContent (ts.takeWhile (fun t => !(t.tag == Tag.nl))) with
      | none =>
        obtain ⟨s', hrun, hlabF⟩ := hLR.1 hfc
        have hrun' : runSteps str ts ⟨L, p, .lineBreak, S⟩ = .ok (⟨L, p, s', S⟩, []) := by
          rw [← hts]; exact hrun
        rw [parseAux_of_runSteps_noLabel str ts _ _ _ hrun' hlabF,
          specRun_cons_blank str _ _ S hfc]
        exact rfl
      | some ft =>
        cases hsn : specNest (substring str p ft.start) S with
        | ok S' =>
          obtain ⟨s', hrun, hlabT, hm⟩ := (hLR.2 ft hfc).2.2 S' hsn
          have hrun' : runSteps str ts ⟨L, p, .lineBreak, S⟩ = .ok (⟨L, p, s', S'⟩, []) := by
            rw [← hts]; exact hrun
          rw [parseAux_of_runSteps_label str ts _ _ _ _ hrun' hlabT (hm str.length),
            specRun_cons_content_ok str _ _ S ft S' hfc hsn]
          exact rfl
        | error e =>
          cases e with
          | errFirst =>
            have herr := (hLR.2 ft hfc).1 hsn
            have herr' : runSteps str ts ⟨L, p, .lineBreak, S⟩ =
                .error (.tagError .firstNonempty L (substring str p ft.stop)) := by
              rw [← hts]; exact herr
            rw [parseAux_of_runSteps_err str ts _ _ herr',
              specRun_cons_content_err str _ _ S ft _ hfc hsn]
            exact trivial
          | errInconsistent =>
            obtain ⟨lvl, herr⟩ := (hLR.2 ft hfc).2.1 hsn
            have herr' : runSteps str ts ⟨L, p, .lineBreak, S⟩ =
                .error (.tagError (.inconsistentWs lvl) L (substring str p ft.stop)) := by
              rw [← hts]; exact herr
            rw [parseAux_of_runSteps_err str ts _ _ herr',
              specRun_cons_content_err str _ _ S ft _ hfc hsn]
            exact trivial
    | cons u ts' =>
      have hu : u.tag = Tag.nl := by
        have := dropWhile_head_false (fun t => !(t.tag == Tag.nl)) ts u ts' hrest
        simpa using this
      have hts2 : ts.takeWhile (fun t => !(t.tag == Tag.nl)) ++ (u :: ts') = ts := by
        rw [← hrest]; exact hsplit
    -- conformance of the remainder of the stream
      have hconf2 : conformingFrom str.length
          (endOf p (ts.takeWhile (fun t => !(t.tag == Tag.nl)))) (u :: ts') = true := by
        apply conformingFrom_append_right
        rw [hts2]
        exact hconf
      have hconf' : conformingFrom str.length u.stop ts' = true := by
        rw [conformingFrom_cons_iff] at hconf2
        exact hconf2.2.2.2
      have hlen' : ts'.length ≤ N := by
        have h2 := congrArg List.length hts2
        simp only [List.length_append, List.length_cons] at h2
        omega
      dsimp only
      cases hfc : firstContent (ts.takeWhile (fun t => !(t.tag == Tag.nl))) with
      | none =>
        obtain ⟨s', hrun, hlabF⟩ := hLR.1 hfc
        have hrunA : runSteps str (ts.takeWhile (fun t => !(t.tag == Tag.nl)) ++ [u])
            ⟨L, p, .lineBreak, S⟩ = .ok (⟨L + 1, u.stop, .lineBreak, S⟩, []) := by
          rw [runSteps_append_ok str _ [u] _ _ _ hrun,
            runSteps_nl_noLabel str u hu L p S s' hlabF]
          rfl
        have hts3 : (ts.takeWhile (fun t => !(t.tag == Tag.nl)) ++ [u]) ++ ts' = ts := by
          rw [List.append_assoc, List.singleton_append]
          exact hts2
        have hdec : parseAux str ts ⟨L, p, .lineBreak, S⟩ =
            (match parseAux str ts' ⟨L + 1, u.stop, .lineBreak, S⟩ with
             | .ok o2 => .ok o2
             | .error e => .error e) := by
          conv_lhs => rw [← hts3]
          rw [parseAux_append_ok str _ ts' _ _ _ hrunA]
          cases parseAux str ts' ⟨L + 1, u.stop, .lineBreak, S⟩ with
          | ok o => simp
          | error e => rfl
        rw [hdec, specRun_cons_blank str _ _ S hfc]
        have hIH := ihN ts' (L + 1) u.stop S hlen' hconf' hInv
        cases hX : parseAux str ts' ⟨L + 1, u.stop, .lineBreak, S⟩ with
        | ok o =>
          rw [hX] at hIH
          dsimp only
          exact hIH
        | error e =>
          rw [hX] at hIH
          dsimp only
          exact hIH
      | some ft =>
        cases hsn : specNest (substring str p ft.start) S with
        | ok S' =>
          obtain ⟨s', hrun, hlabT, hm⟩ := (hLR.2 ft hfc).2.2 S' hsn
          obtain ⟨hInv', hne', hhead', hgrow⟩ := specNest_ok_facts _ S S' hInv hsn
          have hrunA : runSteps str (ts.takeWhile (fun t => !(t.tag == Tag.nl)) ++ [u])
              ⟨L, p, .lineBreak, S⟩ =
              .ok (⟨L + 1, u.stop, .lineBreak, S'⟩,
                [⟨L, p, u.stop, S'.length - 1, substring str ft.start ft.stop,
                  lineMapping str (ts.takeWhile (fun t => !(t.tag == Tag.nl)))⟩]) := by
            rw [runSteps_append_ok str _ [u] _ _ _ hrun,
              runSteps_nl_label str u hu L p S' s' _ hlabT (hm u.stop)]
            rfl
          have hts3 : (ts.takeWhile (fun t => !(t.tag == Tag.nl)) ++ [u]) ++ ts' = ts := by
            rw [List.append_assoc, List.singleton_append]
            exact hts2
          have hdec : parseAux str ts ⟨L, p, .lineBreak, S⟩ =
              (match parseAux str ts' ⟨L + 1, u.stop, .lineBreak, S'⟩ with
               | .ok o2 =>
                 .ok (⟨L, p, u.stop, S'.length - 1, substring str ft.start ft.stop,
                   lineMapping str (ts.takeWhile (fun t => !(t.tag == Tag.nl)))⟩ :: o2)
               | .error e => .error e) := by
            conv_lhs => rw [← hts3]
            rw [parseAux_append_ok str _ ts' _ _ _ hrunA]
            cases parseAux str ts' ⟨L + 1, u.stop, .lineBreak, S'⟩ with
            | ok o => simp
            | error e => rfl
          rw [hdec, specRun_cons_content_ok str _ _ S ft S' hfc hsn]
          have hIH := ihN ts' (L + 1) u.stop S' hlen' hconf' hInv'
          cases hX : parseAux str ts' ⟨L + 1, u.stop, .lineBreak, S'⟩ with
          | ok o =>
            rw [hX] at hIH
            cases hY : specRun str (splitLines str.length (L + 1) u.stop ts') S' with
            | ok o2 =>
              rw [hY] at hIH
              have ho : o = o2 := hIH
              subst ho
              dsimp only
              exact rfl
            | error e2 =>
              rw [hY] at hIH
              exact absurd hIH (by cases e2 <;> simp [sameResult])
          | error e =>
            rw [hX] at hIH
            cases hY : specRun str (splitLines str.length (L + 1) u.stop ts') S' with
            | ok o2 =>
              rw [hY] at hIH
              exact absurd hIH (by cases e <;> simp [sameResult])
            | error e2 =>
              rw [hY] at hIH
              dsimp only
              exact hIH
        | error e =>
          cases e with
          | errFirst =>
            have herr := (hLR.2 ft hfc).1 hsn
            have hP : parseAux str ts ⟨L, p, .lineBreak, S⟩ =
                .error (.tagError .firstNonempty L (substring str p ft.stop)) := by
              rw [← hts2]
              exact parseAux_append_err str _ (u :: ts') _ _ herr
            rw [hP, specRun_cons_content_err str _ _ S ft _ hfc hsn]
            exact trivial
          | errInconsistent =>
            obtain ⟨lvl, herr⟩ := (hLR.2 ft hfc).2.1 hsn
            have hP : parseAux str ts ⟨L, p, .lineBreak, S⟩ =
                .error (.tagError (.inconsistentWs lvl) L (substring str p ft.stop)) := by
              rw [← hts2]
              exact parseAux_append_err str _ (u :: ts') _ _ herr
            rw [hP, specRun_cons_content_err str _ _ S ft _ hfc hsn]
            exact trivial

/-- The main correspondence specialised to `parse` and `specParse`. -/
theorem parse_spec (str : Str) (ts : List Token) (hconf : conforming str ts = true) :
    sameResult (parse str ts) (specParse str ts) := by
  have h := parseAux_spec str ts.length ts 1 0 [] (Nat.le_refl _) hconf (Or.inl rfl)
  exact h

/-- Exhaustive reading of the correspondence relation. -/
theorem sameResult_cases (X : Except PErr (List TagMapping))
    (Y : Except SpecErr (List TagMapping)) (h : sameResult X Y) :
    (∃ o, X = .ok o ∧ Y = .ok o) ∨
    (∃ L ex, X = .error (.tagError .firstNonempty L ex) ∧ Y = .error .errFirst) ∨
    (∃ lvl L ex, X = .error (.tagError (.inconsistentWs lvl) L ex) ∧
      Y = .error .errInconsistent) := by
  cases X with
  | ok o =>
    cases Y with
    | ok o2 =>
      have ho : o = o2 := h
      subst ho
      exact Or.inl ⟨o, rfl, rfl⟩
    | error e2 => cases e2 <;> exact h.elim
  | error e =>
    cases Y with
    | ok o2 =>
      cases e with
      | tagError k L ex => cases k <;> exact h.elim
      | assertFail => exact h.elim
      | underflow => exact h.elim
    | error e2 =>
      cases e with
      | tagError k L ex =>
        cases k with
        | firstNonempty =>
          cases e2 with
          | errFirst => exact Or.inr (Or.inl ⟨L, ex, rfl, rfl⟩)
          | errInconsistent => exact h.elim
        | inconsistentWs lvl =>
          cases e2 with
          | errFirst => exact h.elim
          | errInconsistent => exact Or.inr (Or.inr ⟨lvl, L, ex, rfl, rfl⟩)
      | assertFail => exact h.elim
      | underflow => exact h.elim

/-- On success, the reference run emits exactly one record per non-blank
line, in order, with all fields determined by the line (the nesting by
the stack at that point). -/
theorem specRun_ok_forall (str : Str) :
    ∀ (ls : List LineRec) (stack : List Str) (outs : List TagMapping),
      specRun str ls stack = .ok outs →
      List.Forall₂ (fun (m : TagMapping) (l : LineRec) =>
        ∃ (ft : Token) (S' : List Str), firstContent l.toks = some ft ∧
          m = ⟨l.linum, l.lineStart, l.lineEnd, S'.length - 1,
               substring str ft.start ft.stop, lineMapping str l.toks⟩)
        outs (ls.filter (fun l => (firstContent l.toks).isSome)) := by
  intro ls
  induction ls with
  | nil =>
    intro stack outs h
    cases h
    exact List.Forall₂.nil
  | cons l ls ih =>
    intro stack outs h
    cases hfc : firstContent l.toks with
    | none =>
      rw [specRun_cons_blank str l ls stack hfc] at h
      have := ih stack outs h
      simpa [List.filter_cons, hfc] using this
    | some ft =>
      cases hsn : specNest (substring str l.lineStart ft.start) stack with
      | ok S' =>
        rw [specRun_cons_content_ok str l ls stack ft S' hfc hsn] at h
        cases hrec : specRun str ls S' with
        | ok outs2 =>
          rw [hrec] at h
          cases h
          have hf2 := ih S' outs2 hrec
          rw [show (l :: ls).filter (fun l => (firstContent l.toks).isSome) =
              l :: ls.filter (fun l => (firstContent l.toks).isSome) by
            simp [List.filter_cons, hfc]]
          refine List.Forall₂.cons ?_ hf2
          exact ⟨ft, S', hfc, rfl⟩
        | error e2 => rw [hrec] at h; cases h
      | error e =>
        rw [specRun_cons_content_err str l ls stack ft e hfc hsn] at h
        cases h

theorem lineMapping_none_iff (str : Str) (l : List Token) :
    lineMapping str l = none ↔ (contentToks l).length ≤ 1 := by
  rw [lineMapping]
  cases h : contentToks l with
  | nil => simp
  | cons c cs =>
    cases cs with
    | nil => simp
    | cons c2 more =>
      cases hg : (c2 :: more).getLast? with
      | none => simp at hg
      | some cl => simp [hg]

theorem nestOk_head : ∀ (k : Nat) (outs : List TagMapping), NestOk k outs →
    ∀ m, outs.head? = some m → m.nesting ≤ k := by
  intro k outs h m hm
  cases outs with
  | nil => cases hm
  | cons a rest =>
    cases hm
    exact h.1

theorem nestOk_chain : ∀ (outs : List TagMapping) (k : Nat), NestOk k outs →
    List.Chain' (fun a b => b.nesting ≤ a.nesting + 1) outs := by
  intro outs
  induction outs with
  | nil => intro k _; exact List.chain'_nil
  | cons m rest ih =>
    intro k h
    rw [List.chain'_cons']
    exact ⟨fun m2 hm2 => nestOk_head (m.nesting + 1) rest h.2 m2 hm2, ih (m.nesting + 1) h.2⟩

/-- On success from an invariant stack, the emitted nesting values start
at no more than the current depth and rise by at most one each step. -/
theorem specRun_ok_nest (str : Str) :
    ∀ (ls : List LineRec) (stack : List Str) (outs : List TagMapping),
      StackInv stack →
      specRun str ls stack = .ok outs →
      NestOk stack.length outs := by
  intro ls
  induction ls with
  | nil =>
    intro stack outs _ h
    cases h
    trivial
  | cons l ls ih =>
    intro stack outs hInv h
    cases hfc : firstContent l.toks with
    | none =>
      rw [specRun_cons_blank str l ls stack hfc] at h
      exact ih stack outs hInv h
    | some ft =>
      cases hsn : specNest (substring str l.lineStart ft.start) stack with
      | ok S' =>
        obtain ⟨hInv', hne', hhead', hgrow⟩ :=
          specNest_ok_facts (substring str l.lineStart ft.start) stack S' hInv hsn
        rw [specRun_cons_content_ok str l ls stack ft S' hfc hsn] at h
        cases hrec : specRun str ls S' with
        | ok outs2 =>
          rw [hrec] at h
          cases h
          have hn2 := ih S' outs2 hInv' hrec
          refine ⟨by dsimp only; omega, ?_⟩
          have hlp : S'.length - 1 + 1 = S'.length := by
            cases S' with
            | nil => exact absurd rfl hne'
            | cons a b => simp
          rw [hlp]
          exact hn2
        | error e2 => rw [hrec] at h; cases h
      | error e =>
        rw [specRun_cons_content_err str l ls stack ft e hfc hsn] at h
        cases h

/-- On success from an invariant stack, each emitted record's nesting is
bounded by the length of its line's leading whitespace. -/
theorem specRun_ok_nest_ws (str : Str) :
    ∀ (ls : List LineRec) (stack : List Str) (outs : List TagMapping),
      StackInv stack →
      specRun str ls stack = .ok outs →
      List.Forall₂ (fun (m : TagMapping) (l : LineRec) =>
        ∀ w, lineWs str l = some w → m.nesting ≤ w.length)
        outs (ls.filter (fun l => (firstContent l.toks).isSome)) := by
  intro ls
  induction ls with
  | nil =>
    intro stack outs _ h
    cases h
    exact List.Forall₂.nil
  | cons l ls ih =>
    intro stack outs hInv h
    cases hfc : firstContent l.toks with
    | none =>
      rw [specRun_cons_blank str l ls stack hfc] at h
      have := ih stack outs hInv h
      simpa [List.filter_cons, hfc] using this
    | some ft =>
      cases hsn : specNest (substring str l.lineStart ft.start) stack with
      | ok S' =>
        obtain ⟨hInv', hne', hhead', hgrow⟩ :=
          specNest_ok_facts (substring str l.lineStart ft.start) stack S' hInv hsn
        rw [specRun_cons_content_ok str l ls stack ft S' hfc hsn] at h
        cases hrec : specRun str ls S' with
        | ok outs2 =>
          rw [hrec] at h
          cases h
          have hf2 := ih S' outs2 hInv' hrec
          rw [show (l :: ls).filter (fun l => (firstContent l.toks).isSome) =
              l :: ls.filter (fun l => (firstContent l.toks).isSome) by
            simp [List.filter_cons, hfc]]
          refine List.Forall₂.cons ?_ hf2
          intro w hw
          rw [lineWs, hfc] at hw
          simp only [Option.map_some', Option.some.injEq] at hw
          subst hw
          -- the updated stack has the leading whitespace on top and its
          -- depth is bounded by the top's length plus one
          obtain ⟨top, rest, rfl⟩ : ∃ a b, S' = a :: b := by
            cases S' with
            | nil => exact absurd rfl hne'
            | cons a b => exact ⟨a, b, rfl⟩
          simp only [List.head?_cons, Option.some.injEq] at hhead'
          obtain ⟨hlast', hch'⟩ : (top :: rest).getLast? = some [] ∧
              List.Chain' (fun a b => b <+: a ∧ b ≠ a) (top :: rest) := by
            rcases hInv' with h' | h'
            · simp at h'
            · exact h'
          have hlb := stackInv_length_le rest top hlast' hch'
          have hlw : top.length = (substring str l.lineStart ft.start).length := by
            rw [hhead']
          simp only [List.length_cons] at hlb ⊢
          omega
        | error e2 => rw [hrec] at h; cases h
      | error e =>
        rw [specRun_cons_content_err str l ls stack ft e hfc hsn] at h
        cases h

theorem splitLines_linum_ge (strLen : Nat) :
    ∀ (ts : List Token) (L p : Nat), ∀ l ∈ splitLines strLen L p ts, L ≤ l.linum := by
  intro ts
  induction ts with
  | nil =>
    intro L p l hl
    simp only [splitLines, List.mem_singleton] at hl
    rw [hl]
  | cons t ts ih =>
    intro L p l hl
    by_cases h : t.tag = Tag.nl
    · simp only [splitLines, if_pos h] at hl
      rcases List.mem_cons.mp hl with rfl | hl
      · exact Nat.le_refl _
      · exact Nat.le_of_succ_le (ih (L + 1) t.stop l hl)
    · simp only [splitLines, if_neg h] at hl
      cases hrec : splitLines strLen L p ts with
      | nil => rw [hrec] at hl; simp at hl
      | cons l0 ls0 =>
        rw [hrec] at hl
        rcases List.mem_cons.mp hl with rfl | hl
        · have := ih L p l0 (by rw [hrec]; exact List.mem_cons_self _ _)
          simpa using this
        · exact ih L p l (by rw [hrec]; exact List.mem_cons_of_mem _ hl)

theorem splitLines_pairwise (strLen : Nat) :
    ∀ (ts : List Token) (L p : Nat),
      List.Pairwise (fun a b : LineRec => a.linum < b.linum) (splitLines strLen L p ts) := by
  intro ts
  induction ts with
  | nil => intro L p; simp [splitLines]
  | cons t ts ih =>
    intro L p
    by_cases h : t.tag = Tag.nl
    · simp only [splitLines, if_pos h]
      rw [List.pairwise_cons]
      refine ⟨?_, ih (L + 1) t.stop⟩
      intro l hl
      have := splitLines_linum_ge strLen ts (L + 1) t.stop l hl
      simp only
      omega
    · simp only [splitLines, if_neg h]
      cases hrec : splitLines strLen L p ts with
      | nil => simp
      | cons l0 ls0 =>
        have hp := ih L p
        rw [hrec] at hp
        rw [List.pairwise_cons] at hp ⊢
        exact ⟨fun l hl => hp.1 l hl, hp.2⟩

theorem forall2_map_eq {α β γ : Type} (f : α → γ) (g : β → γ) (R : α → β → Prop)
    (h : ∀ a b, R a b → f a = g b) :
    ∀ (l1 : List α) (l2 : List β), List.Forall₂ R l1 l2 → l1.map f = l2.map g := by
  intro l1 l2 hf
  induction hf with
  | nil => rfl
  | cons h12 htail ih => simp [h _ _ h12, ih]

theorem specNest_cons_ne_errFirst (w top : Str) (rest : List Str) :
    specNest w (top :: rest) ≠ .error .errFirst := by
  rw [specNest.eq_def]
  dsimp only
  split_ifs <;> (intro h; cases h)

theorem specRun_ne_errFirst (str : Str) :
    ∀ (ls : List LineRec) (stack : List Str), StackInv stack → stack ≠ [] →
      specRun str ls stack ≠ .error .errFirst := by
  intro ls
  induction ls with
  | nil =>
    intro stack _ _ h
    cases h
  | cons l ls ih =>
    intro stack hInv hne h
    cases hfc : firstContent l.toks with
    | none =>
      rw [specRun_cons_blank str l ls stack hfc] at h
      exact ih stack hInv hne h
    | some ft =>
      cases hsn : specNest (substring str l.lineStart ft.start) stack with
      | ok S' =>
        obtain ⟨hInv', hne', -, -⟩ :=
          specNest_ok_facts (substring str l.lineStart ft.start) stack S' hInv hsn
        rw [specRun_cons_content_ok str l ls stack ft S' hfc hsn] at h
        cases hrec : specRun str ls S' with
        | ok outs2 => rw [hrec] at h; cases h
        | error e2 =>
          rw [hrec] at h
          cases h
          exact ih S' hInv' hne' hrec
      | error e =>
        rw [specRun_cons_content_err str l ls stack ft e hfc hsn] at h
        cases h
        obtain ⟨top, rest, rfl⟩ : ∃ a b, stack = a :: b := by
          cases stack with
          | nil => exact absurd rfl hne
          | cons a b => exact ⟨a, b, rfl⟩
        exact specNest_cons_ne_errFirst _ top rest hsn

/-- The reference run from the initial (empty) stack reports condition
(a) exactly when the first non-blank line has non-empty leading
whitespace. -/
theorem specRun_errFirst_iff (str : Str) :
    ∀ (ls : List LineRec),
      (specRun str ls [] = .error .errFirst ↔
        ∃ l w, (ls.filter (fun l => (firstContent l.toks).isSome)).head? = some l ∧
          lineWs str l = some w ∧ w ≠ []) := by
  intro ls
  induction ls with
  | nil =>
    constructor
    · intro h; cases h
    · rintro ⟨l, w, hl, -, -⟩
      cases hl
  | cons l ls ih =>
    cases hfc : firstContent l.toks with
    | none =>
      rw [specRun_cons_blank str l ls [] hfc]
      have hfilter : (l :: ls).filter (fun l => (firstContent l.toks).isSome) =
          ls.filter (fun l => (firstContent l.toks).isSome) := by
        simp [List.filter_cons, hfc]
      rw [hfilter]
      exact ih
    | some ft =>
      have hfilter : (l :: ls).filter (fun l => (firstContent l.toks).isSome) =
          l :: ls.filter (fun l => (firstContent l.toks).isSome) := by
        simp [List.filter_cons, hfc]
      rw [hfilter]
      have hlws : lineWs str l = some (substring str l.lineStart ft.start) := by
        rw [lineWs, hfc]
        rfl
      by_cases hw : substring str l.lineStart ft.start = []
      · have hsn : specNest (substring str l.lineStart ft.start) [] = .ok [[]] := by
          rw [specNest.eq_def, if_pos hw]
        rw [specRun_cons_content_ok str l ls [] ft [[]] hfc hsn]
        have hner := specRun_ne_errFirst str ls [[]]
          (Or.inr ⟨rfl, List.chain'_singleton _⟩) (by simp)
        constructor
        · intro h
          cases hrec : specRun str ls [[]] with
          | ok outs2 => rw [hrec] at h; cases h
          | error e2 =>
            rw [hrec] at h
            cases h
            exact absurd hrec hner
        · rintro ⟨l', w', hl', hws', hwne'⟩
          simp only [List.head?_cons, Option.some.injEq] at hl'
          subst hl'
          rw [hlws] at hws'
          simp only [Option.some.injEq] at hws'
          rw [← hws'] at hwne'
          exact absurd hw hwne'
      · have hsn : specNest (substring str l.lineStart ft.start) [] =
            .error .errFirst := by
          rw [specNest.eq_def, if_neg hw]
        rw [specRun_cons_content_err str l ls [] ft _ hfc hsn]
        constructor
        · intro _
          exact ⟨l, substring str l.lineStart ft.start, rfl, hlws, hw⟩
        · intro _
          rfl

/-! ### The claim theorems built on the main correspondence -/

/-- C1: on every conforming token stream, iterating `parse` raises a
`TagError` if and only if the line-level reference semantics reports one
of the two fatal conditions — (a) the first line containing a Content
token has non-empty leading whitespace (`errFirst`, characterised
verbatim by the last conjunct), or (b) a later line's leading whitespace
neither equals any level currently on the whitespace stack nor begins a
new deeper level by strictly extending the top (an ambiguous dedent, the
`errInconsistent` branch of `specNest`); on every other conforming input
the entire output sequence is produced with no error (`sameResult`
forces `parse` to return the full reference output, and the error kinds
correspond one-to-one). -/
theorem C1_error_characterization (str : Str) (ts : List Token)
    (hconf : conforming str ts = true) :
    sameResult (parse str ts) (specParse str ts) ∧
    (∀ e, parse str ts = .error e → isTagError e = true) ∧
    (specParse str ts = .error .errFirst ↔
      ∃ l w, (contentLines str ts).head? = some l ∧ lineWs str l = some w ∧ w ≠ []) := by
  have h := parse_spec str ts hconf
  refine ⟨h, ?_, ?_⟩
  · intro e he
    rcases sameResult_cases _ _ h with ⟨o, ho, -⟩ | ⟨L, ex, hx, -⟩ | ⟨lvl, L, ex, hx, -⟩
    · rw [he] at ho; cases ho
    · rw [he] at hx; cases hx; rfl
    · rw [he] at hx; cases hx; rfl
  · exact specRun_errFirst_iff str (splitLines str.length 1 0 ts)

/-- Witness for C1 on the conforming input `"a\n  b\nc\n"`. -/
theorem C1_error_characterization_witness :
    conforming ['a', '\n', ' ', ' ', 'b', '\n', 'c', '\n']
      [⟨Tag.nonws, 0, 1⟩, ⟨Tag.nl, 1, 2⟩, ⟨Tag.ws, 2, 4⟩, ⟨Tag.nonws, 4, 5⟩,
       ⟨Tag.nl, 5, 6⟩, ⟨Tag.nonws, 6, 7⟩, ⟨Tag.nl, 7, 8⟩] = true ∧
    (sameResult
      (parse ['a', '\n', ' ', ' ', 'b', '\n', 'c', '\n']
        [⟨Tag.nonws, 0, 1⟩, ⟨Tag.nl, 1, 2⟩, ⟨Tag.ws, 2, 4⟩, ⟨Tag.nonws, 4, 5⟩,
         ⟨Tag.nl, 5, 6⟩, ⟨Tag.nonws, 6, 7⟩, ⟨Tag.nl, 7, 8⟩])
      (specParse ['a', '\n', ' ', ' ', 'b', '\n', 'c', '\n']
        [⟨Tag.nonws, 0, 1⟩, ⟨Tag.nl, 1, 2⟩, ⟨Tag.ws, 2, 4⟩, ⟨Tag.nonws, 4, 5⟩,
         ⟨Tag.nl, 5, 6⟩, ⟨Tag.nonws, 6, 7⟩, ⟨Tag.nl, 7, 8⟩]) ∧
     (∀ e, parse ['a', '\n', ' ', ' ', 'b', '\n', 'c', '\n']
        [⟨Tag.nonws, 0, 1⟩, ⟨Tag.nl, 1, 2⟩, ⟨Tag.ws, 2, 4⟩, ⟨Tag.nonws, 4, 5⟩,
         ⟨Tag.nl, 5, 6⟩, ⟨Tag.nonws, 6, 7⟩, ⟨Tag.nl, 7, 8⟩] = .error e →
        isTagError e = true) ∧
     (specParse ['a', '\n', ' ', ' ', 'b', '\n', 'c', '\n']
        [⟨Tag.nonws, 0, 1⟩, ⟨Tag.nl, 1, 2⟩, ⟨Tag.ws, 2, 4⟩, ⟨Tag.nonws, 4, 5⟩,
         ⟨Tag.nl, 5, 6⟩, ⟨Tag.nonws, 6, 7⟩, ⟨Tag.nl, 7, 8⟩] = .error .errFirst ↔
       ∃ l w, (contentLines ['a', '\n', ' ', ' ', 'b', '\n', 'c', '\n']
          [⟨Tag.nonws, 0, 1⟩, ⟨Tag.nl, 1, 2⟩, ⟨Tag.ws, 2, 4⟩, ⟨Tag.nonws, 4, 5⟩,
           ⟨Tag.nl, 5, 6⟩, ⟨Tag.nonws, 6, 7⟩, ⟨Tag.nl, 7, 8⟩]).head? = some l ∧
         lineWs ['a', '\n', ' ', ' ', 'b', '\n', 'c', '\n'] l = some w ∧ w ≠ [])) :=
  ⟨by decide, C1_error_characterization _ _ (by decide)⟩

/-- C9: on conforming streams the `devAssert(false)` invariant-violation
branches (and the pop loop's underflow) are unreachable: any error the
parser raises is a `TagError`. -/
theorem C9_invariant_branches_unreachable (str : Str) (ts : List Token)
    (hconf : conforming str ts = true) :
    ∀ e, parse str ts = .error e → isTagError e = true := by
  intro e he
  rcases sameResult_cases _ _ (parse_spec str ts hconf) with
    ⟨o, ho, -⟩ | ⟨L, ex, hx, -⟩ | ⟨lvl, L, ex, hx, -⟩
  · rw [he] at ho; cases ho
  · rw [he] at hx; cases hx; rfl
  · rw [he] at hx; cases hx; rfl

/-- Witness for C9 on `"  a"`, whose parse fails with the first-line
indentation `TagError`. -/
theorem C9_invariant_branches_unreachable_witness :
    conforming [' ', ' ', 'a'] [⟨Tag.ws, 0, 2⟩, ⟨Tag.nonws, 2, 3⟩] = true ∧
    parse [' ', ' ', 'a'] [⟨Tag.ws, 0, 2⟩, ⟨Tag.nonws, 2, 3⟩] =
      .error (.tagError .firstNonempty 1 [' ', ' ', 'a']) ∧
    isTagError (.tagError .firstNonempty 1 [' ', ' ', 'a']) = true :=
  ⟨by decide, by decide,
    C9_invariant_branches_unreachable [' ', ' ', 'a'] [⟨Tag.ws, 0, 2⟩, ⟨Tag.nonws, 2, 3⟩]
      (by decide) _ (by decide)⟩

/-- C3: on every conforming stream on which `parse` succeeds, the records
pair up one-to-one, in order, with the non-blank lines, and each record's
`mapping` is `lineMapping` of its line: `none` when the line has at most
one Content token, else the source substring from the start of the
line's second Content token to the end of its last Content token. -/
theorem C3_mapping_extraction (str : Str) (ts : List Token) (outs : List TagMapping)
    (hconf : conforming str ts = true) (hok : parse str ts = .ok outs) :
    List.Forall₂ (fun (m : TagMapping) (l : LineRec) =>
        m.mapping = lineMapping str l.toks ∧
        (m.mapping = none ↔ (contentToks l.toks).length ≤ 1))
      outs (contentLines str ts) := by
  rcases sameResult_cases _ _ (parse_spec str ts hconf) with
    ⟨o, ho, hy⟩ | ⟨L, ex, hx, -⟩ | ⟨lvl, L, ex, hx, -⟩
  · rw [hok] at ho
    cases ho
    have hf := specRun_ok_forall str (splitLines str.length 1 0 ts) [] outs hy
    refine hf.imp ?_
    rintro m l ⟨ft, S', hfc, rfl⟩
    exact ⟨rfl, lineMapping_none_iff str l.toks⟩
  · rw [hok] at hx; cases hx
  · rw [hok] at hx; cases hx

/-- Witness for C3 on `"a b c\n"`, whose single line maps `label "a"`,
`mapping "b c"`. -/
theorem C3_mapping_extraction_witness :
    conforming ['a', ' ', 'b', ' ', 'c', '\n']
      [⟨Tag.nonws, 0, 1⟩, ⟨Tag.ws, 1, 2⟩, ⟨Tag.nonws, 2, 3⟩, ⟨Tag.ws, 3, 4⟩,
       ⟨Tag.nonws, 4, 5⟩, ⟨Tag.nl, 5, 6⟩] = true ∧
    parse ['a', ' ', 'b', ' ', 'c', '\n']
      [⟨Tag.nonws, 0, 1⟩, ⟨Tag.ws, 1, 2⟩, ⟨Tag.nonws, 2, 3⟩, ⟨Tag.ws, 3, 4⟩,
       ⟨Tag.nonws, 4, 5⟩, ⟨Tag.nl, 5, 6⟩] =
      .ok [⟨1, 0, 6, 0, ['a'], some ['b', ' ', 'c']⟩] ∧
    List.Forall₂ (fun (m : TagMapping) (l : LineRec) =>
        m.mapping = lineMapping ['a', ' ', 'b', ' ', 'c', '\n'] l.toks ∧
        (m.mapping = none ↔ (contentToks l.toks).length ≤ 1))
      [⟨1, 0, 6, 0, ['a'], some ['b', ' ', 'c']⟩]
      (contentLines ['a', ' ', 'b', ' ', 'c', '\n']
        [⟨Tag.nonws, 0, 1⟩, ⟨Tag.ws, 1, 2⟩, ⟨Tag.nonws, 2, 3⟩, ⟨Tag.ws, 3, 4⟩,
         ⟨Tag.nonws, 4, 5⟩, ⟨Tag.nl, 5, 6⟩]) :=
  ⟨by decide, by decide,
    C3_mapping_extraction _ _ _ (by decide) (by decide)⟩

/-- C4: on every conforming stream on which `parse` succeeds, the output
sequence is monotone — `linum` strictly increases, the first record's
`nesting` is 0, and each record's `nesting` exceeds its predecessor's by
at most 1 (it may decrease arbitrarily). -/
theorem C4_monotonicity (str : Str) (ts : List Token) (outs : List TagMapping)
    (hconf : conforming str ts = true) (hok : parse str ts = .ok outs) :
    List.Chain' (fun a b : TagMapping => a.linum < b.linum) outs ∧
    (∀ m, outs.head? = some m → m.nesting = 0) ∧
    List.Chain' (fun a b : TagMapping => b.nesting ≤ a.nesting + 1) outs := by
  rcases sameResult_cases _ _ (parse_spec str ts hconf) with
    ⟨o, ho, hy⟩ | ⟨L, ex, hx, -⟩ | ⟨lvl, L, ex, hx, -⟩
  · rw [hok] at ho
    cases ho
    have hnest := specRun_ok_nest str (splitLines str.length 1 0 ts) [] outs (Or.inl rfl) hy
    refine ⟨?_, ?_, nestOk_chain outs 0 hnest⟩
    · have hf := specRun_ok_forall str (splitLines str.length 1 0 ts) [] outs hy
      have hmapeq : outs.map (fun m => m.linum) =
          (contentLines str ts).map (fun l => l.linum) :=
        forall2_map_eq _ _ _ (by rintro m l ⟨ft, S', hfc, rfl⟩; rfl) outs _ hf
      have hpw : List.Pairwise (fun a b : LineRec => a.linum < b.linum)
          (contentLines str ts) :=
        (splitLines_pairwise str.length ts 1 0).filter _
      have hpw2 : List.Pairwise (· < ·) ((contentLines str ts).map (fun l => l.linum)) :=
        List.pairwise_map.mpr hpw
      rw [← hmapeq] at hpw2
      exact (List.pairwise_map.mp hpw2).chain'
    · intro m hm
      have := nestOk_head 0 outs hnest m hm
      omega
  · rw [hok] at hx; cases hx
  · rw [hok] at hx; cases hx

/-- Witness for C4 on `"a\n  b\nc\n"` (nestings 0, 1, 0). -/
theorem C4_monotonicity_witness :
    conforming ['a', '\n', ' ', ' ', 'b', '\n', 'c', '\n']
      [⟨Tag.nonws, 0, 1⟩, ⟨Tag.nl, 1, 2⟩, ⟨Tag.ws, 2, 4⟩, ⟨Tag.nonws, 4, 5⟩,
       ⟨Tag.nl, 5, 6⟩, ⟨Tag.nonws, 6, 7⟩, ⟨Tag.nl, 7, 8⟩] = true ∧
    parse ['a', '\n', ' ', ' ', 'b', '\n', 'c', '\n']
      [⟨Tag.nonws, 0, 1⟩, ⟨Tag.nl, 1, 2⟩, ⟨Tag.ws, 2, 4⟩, ⟨Tag.nonws, 4, 5⟩,
       ⟨Tag.nl, 5, 6⟩, ⟨Tag.nonws, 6, 7⟩, ⟨Tag.nl, 7, 8⟩] =
      .ok [⟨1, 0, 2, 0, ['a'], none⟩, ⟨2, 2, 6, 1, ['b'], none⟩,
           ⟨3, 6, 8, 0, ['c'], none⟩] ∧
    (List.Chain' (fun a b : TagMapping => a.linum < b.linum)
      [⟨1, 0, 2, 0, ['a'], none⟩, ⟨2, 2, 6, 1, ['b'], none⟩,
       ⟨3, 6, 8, 0, ['c'], none⟩] ∧
     (∀ m, ([⟨1, 0, 2, 0, ['a'], none⟩, ⟨2, 2, 6, 1, ['b'], none⟩,
        ⟨3, 6, 8, 0, ['c'], none⟩] : List TagMapping).head? = some m → m.nesting = 0) ∧
     List.Chain' (fun a b : TagMapping => b.nesting ≤ a.nesting + 1)
      [⟨1, 0, 2, 0, ['a'], none⟩, ⟨2, 2, 6, 1, ['b'], none⟩,
       ⟨3, 6, 8, 0, ['c'], none⟩]) :=
  ⟨by decide, by decide,
    C4_monotonicity ['a', '\n', ' ', ' ', 'b', '\n', 'c', '\n']
      [⟨Tag.nonws, 0, 1⟩, ⟨Tag.nl, 1, 2⟩, ⟨Tag.ws, 2, 4⟩, ⟨Tag.nonws, 4, 5⟩,
       ⟨Tag.nl, 5, 6⟩, ⟨Tag.nonws, 6, 7⟩, ⟨Tag.nl, 7, 8⟩]
      [⟨1, 0, 2, 0, ['a'], none⟩, ⟨2, 2, 6, 1, ['b'], none⟩, ⟨3, 6, 8, 0, ['c'], none⟩]
      (by decide) (by decide)⟩

/-- C10: on every conforming stream on which `parse` succeeds, each
record's `nesting` is at most the length of its line's leading
whitespace (the substring from the line start to the start of the line's
first Content token); in particular a line with no leading whitespace
has nesting 0, since then the leading whitespace is empty. -/
theorem C10_nesting_bounded_by_ws (str : Str) (ts : List Token) (outs : List TagMapping)
    (hconf : conforming str ts = true) (hok : parse str ts = .ok outs) :
    List.Forall₂ (fun (m : TagMapping) (l : LineRec) =>
        ∀ w, lineWs str l = some w → m.nesting ≤ w.length)
      outs (contentLines str ts) := by
  rcases sameResult_cases _ _ (parse_spec str ts hconf) with
    ⟨o, ho, hy⟩ | ⟨L, ex, hx, -⟩ | ⟨lvl, L, ex, hx, -⟩
  · rw [hok] at ho
    cases ho
    exact specRun_ok_nest_ws str (splitLines str.length 1 0 ts) [] outs (Or.inl rfl) hy
  · rw [hok] at hx; cases hx
  · rw [hok] at hx; cases hx

/-- Witness for C10 on `"a\n  b\nc\n"` (nesting 1 vs leading whitespace
of length 2 on line 2). -/
theorem C10_nesting_bounded_by_ws_witness :
    conforming ['a', '\n', ' ', ' ', 'b', '\n', 'c', '\n']
      [⟨Tag.nonws, 0, 1⟩, ⟨Tag.nl, 1, 2⟩, ⟨Tag.ws, 2, 4⟩, ⟨Tag.nonws, 4, 5⟩,
       ⟨Tag.nl, 5, 6⟩, ⟨Tag.nonws, 6, 7⟩, ⟨Tag.nl, 7, 8⟩] = true ∧
    parse ['a', '\n', ' ', ' ', 'b', '\n', 'c', '\n']
      [⟨Tag.nonws, 0, 1⟩, ⟨Tag.nl, 1, 2⟩, ⟨Tag.ws, 2, 4⟩, ⟨Tag.nonws, 4, 5⟩,
       ⟨Tag.nl, 5, 6⟩, ⟨Tag.nonws, 6, 7⟩, ⟨Tag.nl, 7, 8⟩] =
      .ok [⟨1, 0, 2, 0, ['a'], none⟩, ⟨2, 2, 6, 1, ['b'], none⟩,
           ⟨3, 6, 8, 0, ['c'], none⟩] ∧
    List.Forall₂ (fun (m : TagMapping) (l : LineRec) =>
        ∀ w, lineWs ['a', '\n', ' ', ' ', 'b', '\n', 'c', '\n'] l = some w →
          m.nesting ≤ w.length)
      [⟨1, 0, 2, 0, ['a'], none⟩, ⟨2, 2, 6, 1, ['b'], none⟩,
       ⟨3, 6, 8, 0, ['c'], none⟩]
      (contentLines ['a', '\n', ' ', ' ', 'b', '\n', 'c', '\n']
        [⟨Tag.nonws, 0, 1⟩, ⟨Tag.nl, 1, 2⟩, ⟨Tag.ws, 2, 4⟩, ⟨Tag.nonws, 4, 5⟩,
         ⟨Tag.nl, 5, 6⟩, ⟨Tag.nonws, 6, 7⟩, ⟨Tag.nl, 7, 8⟩]) :=
  ⟨by decide, by decide,
    C10_nesting_bounded_by_ws _ _ _ (by decide) (by decide)⟩

/-! ### Blank-line insertion (C5): reads below / above the insertion point -/

theorem substring_prefix_agree (u v w : Str) (a b : Nat)
    (ha : a ≤ u.length) (hb : b ≤ u.length) :
    substring (u ++ v ++ w) a b = substring (u ++ w) a b := by
  have key : ∀ n, n ≤ u.length → (u ++ v ++ w).take n = (u ++ w).take n := by
    intro n hn
    rw [List.append_assoc, List.take_append_of_le_length hn,
      List.take_append_of_le_length hn]
  unfold substring
  by_cases hab : a ≤ b
  · rw [if_pos hab, if_pos hab, key b hb]
  · rw [if_neg hab, if_neg hab, key a ha]

theorem substring_shift (u v w : Str) (a b : Nat) :
    substring (u ++ v ++ w) (u.length + v.length + a) (u.length + v.length + b) =
      substring (u ++ w) (u.length + a) (u.length + b) := by
  have key : ∀ n, (u ++ v ++ w).take (u.length + v.length + n) = (u ++ v) ++ w.take n := by
    intro n
    rw [show u.length + v.length + n = (u ++ v).length + n by simp [List.length_append],
      List.take_append]
  have key2 : ∀ n, (u ++ w).take (u.length + n) = u ++ w.take n := by
    intro n
    rw [List.take_append]
  have keyd : ∀ (x : Str) n, ((u ++ v) ++ x).drop (u.length + v.length + n) = x.drop n := by
    intro x n
    rw [show u.length + v.length + n = (u ++ v).length + n by simp [List.length_append],
      List.drop_append]
  have keyd2 : ∀ (x : Str) n, (u ++ x).drop (u.length + n) = x.drop n := by
    intro x n
    rw [List.drop_append]
  unfold substring
  by_cases hab : a ≤ b
  · rw [if_pos (by omega : u.length + v.length + a ≤ u.length + v.length + b),
      if_pos (by omega : u.length + a ≤ u.length + b), key b, key2 b, keyd, keyd2]
  · rw [if_neg (by omega : ¬(u.length + v.length + a ≤ u.length + v.length + b)),
      if_neg (by omega : ¬(u.length + a ≤ u.length + b)), key a, key2 a, keyd, keyd2]

theorem substring_shift' (u v w : Str) (a b : Nat)
    (ha : u.length ≤ a) (hb : u.length ≤ b) :
    substring (u ++ v ++ w) (a + v.length) (b + v.length) = substring (u ++ w) a b := by
  obtain ⟨a', rfl⟩ : ∃ a', a = u.length + a' := ⟨a - u.length, by omega⟩
  obtain ⟨b', rfl⟩ : ∃ b', b = u.length + b' := ⟨b - u.length, by omega⟩
  rw [show u.length + a' + v.length = u.length + v.length + a' by omega,
    show u.length + b' + v.length = u.length + v.length + b' by omega]
  exact substring_shift u v w a' b'

theorem marshal_agree (u v w : Str) (L p : Nat) (s : LState) (stop : Nat)
    (hs : StateB u.length s) :
    marshal (u ++ v ++ w) L p s stop = marshal (u ++ w) L p s stop := by
  cases s with
  | lineBreak => rfl
  | beginWs => rfl
  | label n lab => rfl
  | labelWs n lab ms => rfl
  | mapping n lab ms me =>
    simp only [marshal]
    rw [substring_prefix_agree u v w ms me hs.1 hs.2]
  | mappingWs n lab ms me =>
    simp only [marshal]
    rw [substring_prefix_agree u v w ms me hs.1 hs.2]

theorem computeNesting_agree (u v w : Str) (L p t1 t2 : Nat) (S : List Str)
    (hp : p ≤ u.length) (h1 : t1 ≤ u.length) (h2 : t2 ≤ u.length) :
    computeNesting (u ++ v ++ w) L p t1 t2 S = computeNesting (u ++ w) L p t1 t2 S := by
  simp only [computeNesting]
  rw [substring_prefix_agree u v w p t1 hp h1, substring_prefix_agree u v w p t2 hp h2]

theorem step_agree (u v w : Str) (ps : PState) (t : Token)
    (hls : ps.lineStart ≤ u.length) (hts : t.start ≤ u.length) (htp : t.stop ≤ u.length)
    (hsb : StateB u.length ps.s) :
    step (u ++ v ++ w) ps t = step (u ++ w) ps t := by
  cases htag : t.tag with
  | nl =>
    simp only [step, htag,
      marshal_agree u v w ps.linum ps.lineStart ps.s t.stop hsb]
  | ws => simp only [step, htag]
  | nonws =>
    cases hst : ps.s with
    | lineBreak =>
      simp only [step, htag, hst,
        substring_prefix_agree u v w t.start t.stop hts htp]
    | beginWs =>
      simp only [step, htag, hst,
        computeNesting_agree u v w ps.linum ps.lineStart t.start t.stop ps.wsStack hls hts htp,
        substring_prefix_agree u v w t.start t.stop hts htp]
    | label n lab => simp only [step, htag, hst]
    | labelWs n lab ms => simp only [step, htag, hst]
    | mapping n lab ms me => simp only [step, htag, hst]
    | mappingWs n lab ms me => simp only [step, htag, hst]

theorem stateB_mono (q q' : Nat) (s : LState) (h : StateB q s) (hq : q ≤ q') :
    StateB q' s := by
  cases s with
  | labelWs n lab ms => exact Nat.le_trans h hq
  | mapping n lab ms me => exact ⟨Nat.le_trans h.1 hq, Nat.le_trans h.2 hq⟩
  | mappingWs n lab ms me => exact ⟨Nat.le_trans h.1 hq, Nat.le_trans h.2 hq⟩
  | lineBreak => trivial
  | beginWs => trivial
  | label n lab => trivial

theorem step_bounds (str : Str) (ps : PState) (t : Token) (ps2 : PState)
    (out : Option TagMapping) (pos : Nat)
    (h : step str ps t = .ok (ps2, out))
    (hls : ps.lineStart ≤ pos) (hsb : StateB pos ps.s)
    (hstart : t.start = pos) (hlt : t.start ≤ t.stop) :
    ps2.lineStart ≤ t.stop ∧ StateB t.stop ps2.s := by
  cases htag : t.tag with
  | nl =>
    rw [step, htag] at h
    by_cases hl : hasLabel ps.s = true
    · rw [if_pos hl] at h
      cases hm : marshal str ps.linum ps.lineStart ps.s t.stop with
      | some m => rw [hm] at h; cases h; exact ⟨Nat.le_refl _, trivial⟩
      | none => rw [hm] at h; cases h
    · simp only [hl, if_false, Bool.false_eq_true] at h
      cases h
      exact ⟨Nat.le_refl _, trivial⟩
  | ws =>
    rw [step, htag] at h
    cases hst : ps.s with
    | lineBreak => rw [hst] at h; cases h; exact ⟨show ps.lineStart ≤ t.stop by omega, trivial⟩
    | label n lab => rw [hst] at h; cases h; exact ⟨show ps.lineStart ≤ t.stop by omega, Nat.le_refl _⟩
    | mapping n lab ms me =>
      rw [hst] at h
      cases h
      rw [hst] at hsb
      simp only [StateB] at hsb
      exact ⟨show ps.lineStart ≤ t.stop by omega, by omega, by omega⟩
    | beginWs => rw [hst] at h; cases h
    | labelWs n lab ms => rw [hst] at h; cases h
    | mappingWs n lab ms me => rw [hst] at h; cases h
  | nonws =>
    rw [step, htag] at h
    cases hst : ps.s with
    | lineBreak => rw [hst] at h; cases h; exact ⟨show ps.lineStart ≤ t.stop by omega, trivial⟩
    | beginWs =>
      rw [hst] at h
      cases hcn : computeNesting str ps.linum ps.lineStart t.start t.stop ps.wsStack with
      | ok r => rw [hcn] at h; cases r; cases h; exact ⟨show ps.lineStart ≤ t.stop by omega, trivial⟩
      | error e => rw [hcn] at h; cases h
    | labelWs n lab ms =>
      rw [hst] at h
      cases h
      rw [hst] at hsb
      simp only [StateB] at hsb
      exact ⟨show ps.lineStart ≤ t.stop by omega, by omega, Nat.le_refl _⟩
    | mappingWs n lab ms me =>
      rw [hst] at h
      cases h
      rw [hst] at hsb
      simp only [StateB] at hsb
      exact ⟨show ps.lineStart ≤ t.stop by omega, by omega, Nat.le_refl _⟩
    | label n lab => rw [hst] at h; cases h
    | mapping n lab ms me => rw [hst] at h; cases h

/-- Runs whose tokens lie entirely below the insertion point read only
the unchanged prefix of the text, so they are unaffected by the
insertion. -/
theorem runSteps_agree (u v w : Str) :
    ∀ (ts : List Token) (ps : PState) (pos : Nat),
      Contig pos ts →
      (∀ t ∈ ts, t.stop ≤ u.length) →
      ps.lineStart ≤ pos → pos ≤ u.length →
      StateB pos ps.s →
      runSteps (u ++ v ++ w) ts ps = runSteps (u ++ w) ts ps := by
  intro ts
  induction ts with
  | nil => intro ps pos _ _ _ _ _; rfl
  | cons t ts ih =>
    intro ps pos hcont hbd hls hpos hsb
    obtain ⟨hstart, hlt, hcont'⟩ := hcont
    have htstop : t.stop ≤ u.length := hbd t (List.mem_cons_self _ _)
    have htstart : t.start ≤ u.length := by omega
    have hst := step_agree u v w ps t (by omega) htstart htstop
      (stateB_mono pos u.length ps.s hsb hpos)
    simp only [runSteps, hst]
    cases hs : step (u ++ w) ps t with
    | error e => rfl
    | ok v2 =>
      obtain ⟨ps2, out⟩ := v2
      obtain ⟨hls2, hsb2⟩ := step_bounds (u ++ w) ps t ps2 out pos hs hls hsb hstart
        (Nat.le_of_lt hlt)
      dsimp only
      rw [ih ps2 t.stop hcont' (fun x hx => hbd x (List.mem_cons_of_mem _ hx))
        hls2 htstop hsb2]

theorem hasLabel_shiftLS (d : Nat) (s : LState) :
    hasLabel (shiftLS d s) = hasLabel s := by
  cases s <;> rfl

theorem marshal_shift (u v w : Str) (L p : Nat) (s : LState) (stop : Nat)
    (hge : StateGE u.length s) :
    marshal (u ++ v ++ w) (L + 1) (p + v.length) (shiftLS v.length s) (stop + v.length) =
      (marshal (u ++ w) L p s stop).map (shiftOut v.length) := by
  cases s with
  | lineBreak => rfl
  | beginWs => rfl
  | label n lab => rfl
  | labelWs n lab ms => rfl
  | mapping n lab ms me =>
    simp only [StateGE] at hge
    simp only [shiftLS, marshal, Option.map, shiftOut]
    rw [substring_shift' u v w ms me hge.1 hge.2]
  | mappingWs n lab ms me =>
    simp only [StateGE] at hge
    simp only [shiftLS, marshal, Option.map, shiftOut]
    rw [substring_shift' u v w ms me hge.1 hge.2]

theorem computeNesting_shift (u v w : Str) (L p t1 t2 : Nat) (S : List Str)
    (hp : u.length ≤ p) (h1 : u.length ≤ t1) (h2 : u.length ≤ t2) :
    computeNesting (u ++ v ++ w) (L + 1) (p + v.length) (t1 + v.length) (t2 + v.length) S =
      match computeNesting (u ++ w) L p t1 t2 S with
      | .ok r => .ok r
      | .error e => .error (shiftErr e) := by
  cases S with
  | nil =>
    simp only [computeNesting, substring_shift' u v w p t2 hp h2]
    rfl
  | cons top rest =>
    simp only [computeNesting, substring_shift' u v w p t1 hp h1,
      substring_shift' u v w p t2 hp h2]
    by_cases hpre : top.isPrefixOf (substring (u ++ w) p t1) = true
    · by_cases heq : substring (u ++ w) p t1 = top
      · simp only [if_pos hpre, if_pos heq]
      · simp only [if_pos hpre, if_neg heq]
    · simp only [if_neg hpre]
      cases hpl : popLoop (substring (u ++ w) p t1) (top :: rest) <;> rfl

theorem step_shift (u v w : Str) (ps : PState) (t : Token)
    (hls : u.length ≤ ps.lineStart) (hts : u.length ≤ t.start) (hlt : t.start ≤ t.stop)
    (hge : StateGE u.length ps.s) :
    step (u ++ v ++ w) (shiftPS v.length ps) (shiftTok v.length t) =
      match step (u ++ w) ps t with
      | .ok (ps2, out) => .ok (shiftPS v.length ps2, out.map (shiftOut v.length))
      | .error e => .error (shiftErr e) := by
  have htp : u.length ≤ t.stop := Nat.le_trans hts hlt
  cases htag : t.tag with
  | nl =>
    simp only [step, shiftTok, shiftPS, htag, hasLabel_shiftLS]
    by_cases hl : hasLabel ps.s = true
    · rw [if_pos hl, if_pos hl,
        marshal_shift u v w ps.linum ps.lineStart ps.s t.stop hge]
      cases hm : marshal (u ++ w) ps.linum ps.lineStart ps.s t.stop with
      | some m => rfl
      | none => rfl
    · rw [if_neg hl, if_neg hl]
      rfl
  | ws =>
    simp only [step, shiftTok, shiftPS, htag]
    cases hst : ps.s with
    | lineBreak => rfl
    | beginWs => rfl
    | label n lab => rfl
    | labelWs n lab ms => rfl
    | mapping n lab ms me => rfl
    | mappingWs n lab ms me => rfl
  | nonws =>
    simp only [step, shiftTok, shiftPS, htag]
    cases hst : ps.s with
    | lineBreak =>
      simp only [shiftLS]
      rw [substring_shift' u v w t.start t.stop hts htp]
      rfl
    | beginWs =>
      simp only [shiftLS]
      rw [computeNesting_shift u v w ps.linum ps.lineStart t.start t.stop ps.wsStack hls hts htp]
      cases hcn : computeNesting (u ++ w) ps.linum ps.lineStart t.start t.stop ps.wsStack with
      | ok r =>
        obtain ⟨n, stack2⟩ := r
        simp only
        rw [substring_shift' u v w t.start t.stop hts htp]
        rfl
      | error e => rfl
    | label n lab => rfl
    | labelWs n lab ms => rfl
    | mapping n lab ms me => rfl
    | mappingWs n lab ms me => rfl

theorem step_ge (q : Nat) (str : Str) (ps : PState) (t : Token) (ps2 : PState)
    (out : Option TagMapping)
    (h : step str ps t = .ok (ps2, out))
    (hls : q ≤ ps.lineStart) (hge : StateGE q ps.s)
    (hts : q ≤ t.start) (hlt : t.start ≤ t.stop) :
    q ≤ ps2.lineStart ∧ StateGE q ps2.s := by
  cases htag : t.tag with
  | nl =>
    rw [step, htag] at h
    by_cases hl : hasLabel ps.s = true
    · rw [if_pos hl] at h
      cases hm : marshal str ps.linum ps.lineStart ps.s t.stop with
      | some m => rw [hm] at h; cases h; exact ⟨show q ≤ t.stop by omega, trivial⟩
      | none => rw [hm] at h; cases h
    · rw [if_neg hl] at h
      cases h
      exact ⟨show q ≤ t.stop by omega, trivial⟩
  | ws =>
    rw [step, htag] at h
    cases hst : ps.s with
    | lineBreak => rw [hst] at h; cases h; exact ⟨show q ≤ ps.lineStart by omega, trivial⟩
    | label n lab =>
      rw [hst] at h
      cases h
      exact ⟨show q ≤ ps.lineStart by omega, show q ≤ t.stop by omega⟩
    | mapping n lab ms me =>
      rw [hst] at h
      cases h
      rw [hst] at hge
      simp only [StateGE] at hge
      exact ⟨show q ≤ ps.lineStart by omega, by omega, by omega⟩
    | beginWs => rw [hst] at h; cases h
    | labelWs n lab ms => rw [hst] at h; cases h
    | mappingWs n lab ms me => rw [hst] at h; cases h
  | nonws =>
    rw [step, htag] at h
    cases hst : ps.s with
    | lineBreak => rw [hst] at h; cases h; exact ⟨show q ≤ ps.lineStart by omega, trivial⟩
    | beginWs =>
      rw [hst] at h
      cases hcn : computeNesting str ps.linum ps.lineStart t.start t.stop ps.wsStack with
      | ok r => rw [hcn] at h; cases r; cases h; exact ⟨show q ≤ ps.lineStart by omega, trivial⟩
      | error e => rw [hcn] at h; cases h
    | labelWs n lab ms =>
      rw [hst] at h
      cases h
      rw [hst] at hge
      simp only [StateGE] at hge
      exact ⟨show q ≤ ps.lineStart by omega, by omega, by omega⟩
    | mappingWs n lab ms me =>
      rw [hst] at h
      cases h
      rw [hst] at hge
      simp only [StateGE] at hge
      exact ⟨show q ≤ ps.lineStart by omega, by omega, by omega⟩
    | label n lab => rw [hst] at h; cases h
    | mapping n lab ms me => rw [hst] at h; cases h

theorem runSteps_shift (u v w : Str) :
    ∀ (ts : List Token) (ps : PState) (pos : Nat),
      Contig pos ts → u.length ≤ pos →
      u.length ≤ ps.lineStart → StateGE u.length ps.s →
      runSteps (u ++ v ++ w) (ts.map (shiftTok v.length)) (shiftPS v.length ps) =
        match runSteps (u ++ w) ts ps with
        | .ok (ps3, outs) => .ok (shiftPS v.length ps3, outs.map (shiftOut v.length))
        | .error e => .error (shiftErr e) := by
  intro ts
  induction ts with
  | nil => intro ps pos _ _ _ _; rfl
  | cons t ts ih =>
    intro ps pos hcont hpos hls hge
    obtain ⟨hstart, hlt, hcont'⟩ := hcont
    have hts : u.length ≤ t.start := by omega
    simp only [List.map_cons, runSteps,
      step_shift u v w ps t hls hts (Nat.le_of_lt hlt) hge]
    cases hs : step (u ++ w) ps t with
    | error e => rfl
    | ok v2 =>
      obtain ⟨ps2, out⟩ := v2
      obtain ⟨hls2, hge2⟩ := step_ge u.length (u ++ w) ps t ps2 out hs hls hge hts
        (Nat.le_of_lt hlt)
      simp only
      rw [ih ps2 t.stop hcont' (by omega) hls2 hge2]
      cases hr : runSteps (u ++ w) ts ps2 with
      | error e => rfl
      | ok v3 =>
        obtain ⟨ps3, outs⟩ := v3
        simp only [List.map_append]
        cases out with
        | none => rfl
        | some m => rfl

theorem runSteps_ge (q : Nat) (str : Str) :
    ∀ (ts : List Token) (ps : PState) (pos : Nat) (ps3 : PState) (outs : List TagMapping),
      runSteps str ts ps = .ok (ps3, outs) →
      Contig pos ts → q ≤ pos → q ≤ ps.lineStart → StateGE q ps.s →
      q ≤ ps3.lineStart ∧ StateGE q ps3.s := by
  intro ts
  induction ts with
  | nil =>
    intro ps pos ps3 outs h _ _ hls hge
    cases h
    exact ⟨hls, hge⟩
  | cons t ts ih =>
    intro ps pos ps3 outs h hcont hpos hls hge
    obtain ⟨hstart, hlt, hcont'⟩ := hcont
    simp only [runSteps] at h
    cases hs : step str ps t with
    | error e => rw [hs] at h; cases h
    | ok v2 =>
      obtain ⟨ps2, out⟩ := v2
      rw [hs] at h
      dsimp only at h
      obtain ⟨hls2, hge2⟩ := step_ge q str ps t ps2 out hs hls hge (by omega)
        (Nat.le_of_lt hlt)
      cases hr : runSteps str ts ps2 with
      | error e => rw [hr] at h; cases h
      | ok v3 =>
        obtain ⟨ps4, outs2⟩ := v3
        rw [hr] at h
        injection h with h1
        injection h1 with h2 h3
        rw [← h2]
        exact ih ps2 t.stop ps4 outs2 hr hcont' (by omega) hls2 hge2

theorem parseAux_shift (u v w : Str) (ts : List Token) (ps : PState) (pos : Nat)
    (hcont : Contig pos ts) (hpos : u.length ≤ pos)
    (hls : u.length ≤ ps.lineStart) (hge : StateGE u.length ps.s) :
    parseAux (u ++ v ++ w) (ts.map (shiftTok v.length)) (shiftPS v.length ps) =
      match parseAux (u ++ w) ts ps with
      | .ok outs => .ok (outs.map (shiftOut v.length))
      | .error e => .error (shiftErr e) := by
  unfold parseAux
  rw [runSteps_shift u v w ts ps pos hcont hpos hls hge]
  cases hr : runSteps (u ++ w) ts ps with
  | error e => rfl
  | ok v3 =>
    obtain ⟨ps3, outs⟩ := v3
    obtain ⟨hls3, hge3⟩ := runSteps_ge u.length (u ++ w) ts ps pos ps3 outs hr hcont hpos hls hge
    simp only [shiftPS, hasLabel_shiftLS]
    have hlen : (u ++ v ++ w).length = (u ++ w).length + v.length := by
      simp only [List.length_append]
      omega
    rw [hlen, marshal_shift u v w ps3.linum ps3.lineStart ps3.s (u ++ w).length hge3]
    by_cases hl : hasLabel ps3.s = true
    · rw [if_pos hl, if_pos hl]
      cases hm : marshal (u ++ w) ps3.linum ps3.lineStart ps3.s (u ++ w).length with
      | some m => simp only [Option.map, List.map_append]; rfl
      | none => rfl
    · rw [if_neg hl, if_neg hl]

theorem step_nl_state (str : Str) (ps : PState) (t : Token) (ps2 : PState)
    (out : Option TagMapping)
    (htag : t.tag = Tag.nl) (h : step str ps t = .ok (ps2, out)) :
    ps2 = ⟨ps.linum + 1, t.stop, .lineBreak, ps.wsStack⟩ := by
  rw [step, htag] at h
  by_cases hl : hasLabel ps.s = true
  · rw [if_pos hl] at h
    cases hm : marshal str ps.linum ps.lineStart ps.s t.stop with
    | some m => rw [hm] at h; cases h; rfl
    | none => rw [hm] at h; cases h
  · rw [if_neg hl] at h
    cases h
    rfl

theorem runSteps_boundary (str : Str) :
    ∀ (ts : List Token) (ps ps2 : PState) (o : List TagMapping) (tl : Token),
      runSteps str ts ps = .ok (ps2, o) → ts.getLast? = some tl → tl.tag = Tag.nl →
      ps2.s = .lineBreak ∧ ps2.lineStart = tl.stop := by
  intro ts
  induction ts with
  | nil => intro ps ps2 o tl _ hlast _; cases hlast
  | cons t ts ih =>
    intro ps ps2 o tl h hlast htag
    simp only [runSteps] at h
    cases hs : step str ps t with
    | error e => rw [hs] at h; cases h
    | ok v2 =>
      obtain ⟨ps2', out⟩ := v2
      rw [hs] at h
      dsimp only at h
      cases ts with
      | nil =>
        simp only [List.getLast?_singleton, Option.some.injEq] at hlast
        subst hlast
        simp only [runSteps] at h
        injection h with h1
        injection h1 with h2 h3
        rw [← h2, step_nl_state str ps t ps2' out htag hs]
        exact ⟨rfl, rfl⟩
      | cons t2 ts2 =>
        rw [List.getLast?_cons_cons] at hlast
        cases hr : runSteps str (t2 :: ts2) ps2' with
        | error e => rw [hr] at h; dsimp only at h; cases h
        | ok v3 =>
          obtain ⟨ps3, outs⟩ := v3
          rw [hr] at h
          dsimp only at h
          injection h with h1
          injection h1 with h2 h3
          rw [← h2]
          exact ih ps2' ps3 outs tl hr hlast htag

theorem conformingFrom_last_stop (strLen : Nat) :
    ∀ (ts : List Token) (pos : Nat) (tl : Token),
      conformingFrom strLen pos ts = true → ts.getLast? = some tl → tl.stop = strLen := by
  intro ts
  induction ts with
  | nil => intro pos tl _ hl; cases hl
  | cons t ts ih =>
    intro pos tl h hl
    rw [conformingFrom_cons_iff] at h
    cases ts with
    | nil =>
      simp only [List.getLast?_singleton, Option.some.injEq] at hl
      subst hl
      simp only [conformingFrom, beq_iff_eq] at h
      exact h.2.2.2
    | cons t2 ts2 =>
      rw [List.getLast?_cons_cons] at hl
      exact ih t.stop tl h.2.2.2 hl

theorem runSteps_mid (str : Str) (L p dv : Nat) (S : List Str) (mid : List Token)
    (hmid : mid = [⟨Tag.nl, p, p + dv⟩] ∨
      ∃ a, 0 < a ∧ a < dv ∧ mid = [⟨Tag.ws, p, p + a⟩, ⟨Tag.nl, p + a, p + dv⟩]) :
    runSteps str mid ⟨L, p, .lineBreak, S⟩ = .ok (⟨L + 1, p + dv, .lineBreak, S⟩, []) := by
  rcases hmid with rfl | ⟨a, _, _, rfl⟩
  · simp only [runSteps, step, hasLabel]
    rfl
  · simp only [runSteps, step, hasLabel]
    rfl

/-- Refutation of the literal reading of the blank-line claim: prepending
a blank line to a one-line input advances `linum` as claimed, but the
emitted record's line span also moves by the inserted length, so the
output is not "unchanged except `linum`".  The record the claim predicts
(the original with only `linum` bumped) differs from the one produced. -/
theorem C5_counterexample :
    parse ['a'] [⟨Tag.nonws, 0, 1⟩] = .ok [⟨1, 0, 1, 0, ['a'], none⟩] ∧
    parse ['\x0a', 'a'] [⟨Tag.nl, 0, 1⟩, ⟨Tag.nonws, 1, 2⟩] =
      .ok [⟨2, 1, 2, 0, ['a'], none⟩] ∧
    conforming ['a'] [⟨Tag.nonws, 0, 1⟩] = true ∧
    conforming ['\x0a', 'a'] [⟨Tag.nl, 0, 1⟩, ⟨Tag.nonws, 1, 2⟩] = true ∧
    (⟨2, 1, 2, 0, ['a'], none⟩ : TagMapping) ≠ ⟨2, 0, 1, 0, ['a'], none⟩ := by
  decide

/-- Claim C5 (corrected).  Inserting one blank line — a LineBreak token,
optionally preceded by a Whitespace token, spanning inserted text `v` —
at a line boundary of a conforming stream never touches the whitespace
stack and emits nothing itself: every earlier output is unchanged, every
later output reappears with `linum` advanced by exactly one and its line
span shifted by the inserted length, `nesting`, `label` and `mapping`
untouched, and an error located after the insertion point keeps its kind
and excerpt with its line number advanced by one.  (The original claim's
stronger "output unchanged except `linum`" is refuted by
`C5_counterexample`: later line spans also move.) -/
theorem C5_blank_line_insertion (u v w : Str) (pre post mid : List Token)
    (hpre : conformingFrom u.length 0 pre = true)
    (hpost : conformingFrom (u ++ w).length u.length post = true)
    (hboundary : pre = [] ∨ ∃ tl, pre.getLast? = some tl ∧ tl.tag = Tag.nl)
    (hmid : mid = [⟨Tag.nl, u.length, u.length + v.length⟩] ∨
      ∃ a, 0 < a ∧ a < v.length ∧
        mid = [⟨Tag.ws, u.length, u.length + a⟩,
               ⟨Tag.nl, u.length + a, u.length + v.length⟩]) :
    match runSteps (u ++ w) pre initPS with
    | .error e =>
        parse (u ++ w) (pre ++ post) = .error e ∧
        parse (u ++ v ++ w) (pre ++ mid ++ post.map (shiftTok v.length)) = .error e
    | .ok (ps₁, o₁) =>
        (∀ e, parse (u ++ w) (pre ++ post) = .error e →
          parse (u ++ v ++ w) (pre ++ mid ++ post.map (shiftTok v.length)) =
            .error (shiftErr e)) ∧
        (∀ o, parse (u ++ w) (pre ++ post) = .ok o →
          ∃ o₂, o = o₁ ++ o₂ ∧
            parse (u ++ v ++ w) (pre ++ mid ++ post.map (shiftTok v.length)) =
              .ok (o₁ ++ o₂.map (shiftOut v.length))) := by
  have hcontpre := conformingFrom_contig u.length pre 0 hpre
  have hbd : ∀ t ∈ pre, t.stop ≤ u.length :=
    fun t ht => (conformingFrom_bounds u.length pre 0 hpre t ht).2.2
  have hagree := runSteps_agree u v w pre initPS 0 hcontpre hbd (Nat.le_refl 0)
    (Nat.zero_le _) trivial
  cases hrun : runSteps (u ++ w) pre initPS with
  | error e =>
    dsimp only
    refine ⟨parseAux_append_err (u ++ w) pre post initPS e hrun, ?_⟩
    have hrun2 : runSteps (u ++ v ++ w) pre initPS = .error e := by
      rw [hagree]; exact hrun
    show parseAux (u ++ v ++ w) (pre ++ mid ++ post.map (shiftTok v.length)) initPS = .error e
    rw [List.append_assoc pre mid (post.map (shiftTok v.length))]
    exact parseAux_append_err (u ++ v ++ w) pre (mid ++ post.map (shiftTok v.length))
      initPS e hrun2
  | ok v1 =>
    obtain ⟨ps₁, o₁⟩ := v1
    dsimp only
    have hps : ps₁.s = .lineBreak ∧ ps₁.lineStart = u.length := by
      rcases hboundary with hnil | ⟨tl, hl, htag⟩
      · subst hnil
        simp only [runSteps] at hrun
        injection hrun with h1
        injection h1 with h2 h3
        have hu : u.length = 0 := by
          have hp := hpre
          simp only [conformingFrom, beq_iff_eq] at hp
          omega
        refine ⟨?_, ?_⟩
        · rw [← h2]
          rfl
        · rw [← h2, hu]
          rfl
      · obtain ⟨hsb, hlsb⟩ := runSteps_boundary (u ++ w) pre initPS ps₁ o₁ tl hrun hl htag
        have hstop : tl.stop = u.length := conformingFrom_last_stop u.length pre 0 tl hpre hl
        exact ⟨hsb, by rw [hlsb, hstop]⟩
    obtain ⟨L₁, p₁, s₁, S₁⟩ := ps₁
    obtain ⟨hs₁, hp₁⟩ := hps
    dsimp only at hs₁ hp₁
    subst hs₁
    subst hp₁
    have hmidrun := runSteps_mid (u ++ v ++ w) L₁ u.length v.length S₁ mid hmid
    have hrun2 : runSteps (u ++ v ++ w) pre initPS =
        .ok (⟨L₁, u.length, .lineBreak, S₁⟩, o₁) := by
      rw [hagree]; exact hrun
    have hcontpost : Contig u.length post :=
      conformingFrom_contig (u ++ w).length post u.length hpost
    have hshift := parseAux_shift u v w post ⟨L₁, u.length, .lineBreak, S₁⟩ u.length
      hcontpost (Nat.le_refl _) (Nat.le_refl _) trivial
    have hPSeq : shiftPS v.length (⟨L₁, u.length, .lineBreak, S₁⟩ : PState) =
        ⟨L₁ + 1, u.length + v.length, .lineBreak, S₁⟩ := rfl
    rw [hPSeq] at hshift
    have hMain : parseAux (u ++ w) (pre ++ post) initPS =
        (match parseAux (u ++ w) post ⟨L₁, u.length, .lineBreak, S₁⟩ with
         | .ok o2 => .ok (o₁ ++ o2)
         | .error e => .error e) :=
      parseAux_append_ok (u ++ w) pre post initPS _ o₁ hrun
    have hS1 : parseAux (u ++ v ++ w) (pre ++ (mid ++ post.map (shiftTok v.length)))
        initPS =
        (match parseAux (u ++ v ++ w) (mid ++ post.map (shiftTok v.length))
            ⟨L₁, u.length, .lineBreak, S₁⟩ with
         | .ok o2 => .ok (o₁ ++ o2)
         | .error e => .error e) :=
      parseAux_append_ok (u ++ v ++ w) pre (mid ++ post.map (shiftTok v.length))
        initPS _ o₁ hrun2
    have hS2 : parseAux (u ++ v ++ w) (mid ++ post.map (shiftTok v.length))
        (⟨L₁, u.length, .lineBreak, S₁⟩ : PState) =
        (match parseAux (u ++ v ++ w) (post.map (shiftTok v.length))
            ⟨L₁ + 1, u.length + v.length, .lineBreak, S₁⟩ with
         | .ok o2 => .ok ([] ++ o2)
         | .error e => .error e) :=
      parseAux_append_ok (u ++ v ++ w) mid (post.map (shiftTok v.length))
        ⟨L₁, u.length, .lineBreak, S₁⟩ ⟨L₁ + 1, u.length + v.length, .lineBreak, S₁⟩
        [] hmidrun
    cases hpost' : parseAux (u ++ w) post ⟨L₁, u.length, .lineBreak, S₁⟩ with
    | error e' =>
      refine ⟨?_, ?_⟩
      · intro e he
        have hM : parseAux (u ++ w) (pre ++ post) initPS = .error e' := by
          rw [hMain, hpost']
        have he' : (Except.error e' : Except PErr (List TagMapping)) = .error e := by
          rw [← hM]; exact he
        injection he' with h4
        subst h4
        show parseAux (u ++ v ++ w) (pre ++ mid ++ post.map (shiftTok v.length))
          initPS = _
        rw [List.append_assoc pre mid (post.map (shiftTok v.length)), hS1, hS2, hshift,
          hpost']
      · intro o ho
        have hM : parseAux (u ++ w) (pre ++ post) initPS = .error e' := by
          rw [hMain, hpost']
        rw [show parse (u ++ w) (pre ++ post) =
            parseAux (u ++ w) (pre ++ post) initPS from rfl, hM] at ho
        cases ho
    | ok o2 =>
      refine ⟨?_, ?_⟩
      · intro e he
        have hM : parseAux (u ++ w) (pre ++ post) initPS = .ok (o₁ ++ o2) := by
          rw [hMain, hpost']
        rw [show parse (u ++ w) (pre ++ post) =
            parseAux (u ++ w) (pre ++ post) initPS from rfl, hM] at he
        cases he
      · intro o ho
        refine ⟨o2, ?_, ?_⟩
        · have hM : parseAux (u ++ w) (pre ++ post) initPS = .ok (o₁ ++ o2) := by
            rw [hMain, hpost']
          rw [show parse (u ++ w) (pre ++ post) =
              parseAux (u ++ w) (pre ++ post) initPS from rfl, hM] at ho
          injection ho with h4
          exact h4.symm
        · show parseAux (u ++ v ++ w) (pre ++ mid ++ post.map (shiftTok v.length))
            initPS = _
          rw [List.append_assoc pre mid (post.map (shiftTok v.length)), hS1, hS2, hshift,
            hpost']
          rfl

theorem C5_blank_line_insertion_witness :
    parse ['a', '\x0a', '\x0a', 'b']
        [⟨Tag.nonws, 0, 1⟩, ⟨Tag.nl, 1, 2⟩, ⟨Tag.nl, 2, 3⟩, ⟨Tag.nonws, 3, 4⟩] =
      .ok [⟨1, 0, 2, 0, ['a'], none⟩, ⟨3, 3, 4, 0, ['b'], none⟩] ∧
    parse ['a', '\x0a', 'b'] [⟨Tag.nonws, 0, 1⟩, ⟨Tag.nl, 1, 2⟩, ⟨Tag.nonws, 2, 3⟩] =
      .ok [⟨1, 0, 2, 0, ['a'], none⟩, ⟨2, 2, 3, 0, ['b'], none⟩] := by
  have h := C5_blank_line_insertion ['a', '\x0a'] ['\x0a'] ['b']
    [⟨Tag.nonws, 0, 1⟩, ⟨Tag.nl, 1, 2⟩] [⟨Tag.nonws, 2, 3⟩] [⟨Tag.nl, 2, 3⟩]
    (by decide) (by decide)
    (Or.inr ⟨⟨Tag.nl, 1, 2⟩, by decide, by decide⟩)
    (Or.inl (by decide))
  have h' : (∀ e, parse (['a', '\x0a'] ++ ['b'])
        ([⟨Tag.nonws, 0, 1⟩, ⟨Tag.nl, 1, 2⟩] ++ [⟨Tag.nonws, 2, 3⟩]) = .error e →
        parse (['a', '\x0a'] ++ ['\x0a'] ++ ['b'])
          ([⟨Tag.nonws, 0, 1⟩, ⟨Tag.nl, 1, 2⟩] ++ [⟨Tag.nl, 2, 3⟩] ++
            [⟨Tag.nonws, 2, 3⟩].map (shiftTok 1)) = .error (shiftErr e)) ∧
      (∀ o, parse (['a', '\x0a'] ++ ['b'])
        ([⟨Tag.nonws, 0, 1⟩, ⟨Tag.nl, 1, 2⟩] ++ [⟨Tag.nonws, 2, 3⟩]) = .ok o →
        ∃ o₂, o = [⟨1, 0, 2, 0, ['a'], none⟩] ++ o₂ ∧
          parse (['a', '\x0a'] ++ ['\x0a'] ++ ['b'])
            ([⟨Tag.nonws, 0, 1⟩, ⟨Tag.nl, 1, 2⟩] ++ [⟨Tag.nl, 2, 3⟩] ++
              [⟨Tag.nonws, 2, 3⟩].map (shiftTok 1)) =
            .ok ([⟨1, 0, 2, 0, ['a'], none⟩] ++ o₂.map (shiftOut 1))) := h
  have hok : parse (['a', '\x0a'] ++ ['b'])
      ([⟨Tag.nonws, 0, 1⟩, ⟨Tag.nl, 1, 2⟩] ++ [⟨Tag.nonws, 2, 3⟩]) =
      .ok [⟨1, 0, 2, 0, ['a'], none⟩, ⟨2, 2, 3, 0, ['b'], none⟩] := by decide
  obtain ⟨o₂, ho2, hres⟩ :=
    h'.2 [⟨1, 0, 2, 0, ['a'], none⟩, ⟨2, 2, 3, 0, ['b'], none⟩] hok
  injection ho2 with h1 h2
  have h2' : o₂ = [⟨2, 2, 3, 0, ['b'], none⟩] := by simpa using h2.symm
  subst h2'
  exact ⟨hres, by decide⟩

end Ankiss
